import Mathlib

/-!
# Spinova: the `SpinTheWheel` class of `script.js`

A shallow embedding of the wheel widget.  A JavaScript number is read as the rational
number it denotes, and every arithmetic operation of the source is followed by the
rounding of its result: the methods take an arithmetic `A : Arith K`, which packs
`Math.PI`, the rounding and `Math.pow(x, 3)`.  The code is the instance `binary64`
over the rationals (round to nearest double, ties to even, subnormal range included);
`Infinity` and `NaN` are not represented, so the instance is the code wherever no
result passes the largest double.  The instance `exactArith pi` rounds nothing
and serves to compare the code with the formula in exact arithmetic.  Integer-valued
numbers (indices, counters, times in ms) are `Int` or `Nat`.  The DOM, the canvas and
`localStorage` are not part of the state; what the user sees of `showToast` is kept as
a log.
-/

set_option linter.unusedSectionVars false

namespace Spinova

/-! ## Numbers -/

/-- The number of halvings that bring `n` below 2, by recursion on the fuel. -/
def log2Fuel : ℕ → ℕ → ℕ
  | 0, _ => 0
  | fuel + 1, n => if n < 2 then 0 else log2Fuel fuel (n / 2) + 1

/-- The position of the leading bit of `n`, the integer part of its binary logarithm
for `n ≥ 1`. -/
def bitLog (n : ℕ) : ℕ :=
  log2Fuel n n

/-- The power of two `2 ^ e` for an integer exponent. -/
def twoPow (e : ℤ) : ℚ :=
  if 0 ≤ e then ((2 ^ e.toNat : ℕ) : ℚ) else 1 / ((2 ^ (-e).toNat : ℕ) : ℚ)

/-- The binary exponent of a non-zero rational: the `e` with `2 ^ e ≤ |x| < 2 ^ (e + 1)`. -/
def binade (x : ℚ) : ℤ :=
  let e0 : ℤ := (bitLog x.num.natAbs : ℤ) - (bitLog x.den : ℤ)
  if twoPow e0 ≤ |x| then e0 else e0 - 1

/-- Rounding to the nearest integer, a tie going to the even neighbour. -/
def roundHalfEven (q : ℚ) : ℤ :=
  let f : ℤ := ⌊q⌋
  let r : ℚ := q - f
  if r < 1 / 2 then f else if 1 / 2 < r then f + 1 else if f % 2 = 0 then f else f + 1

/-- The binary64 value nearest to `x`, ties to even: 53 significant bits, the unit in the
last place not below `2 ^ -1074`. This is the rounding every arithmetic operation of
JavaScript applies to its exact result (results past the largest double excepted). -/
def roundToDouble (x : ℚ) : ℚ :=
  if x = 0 then 0
  else
    let u : ℤ := max (binade x - 52) (-1074)
    (roundHalfEven (x / twoPow u) : ℚ) * twoPow u

/-- The double `Math.PI`, `884279719003555 * 2 ^ -48`. -/
def mathPI : ℚ :=
  884279719003555 / 281474976710656

/-- The arithmetic the methods compute in: the constant `Math.PI`, the rounding `fl`
applied to the exact result of each operation, and `cube x` for `Math.pow(x, 3)`. -/
structure Arith (K : Type) where
  pi : K
  fl : K → K
  cube : K → K

/-- Exact arithmetic with the constant `pi`: nothing is rounded. -/
def exactArith {K : Type} [LinearOrderedField K] (pi : K) : Arith K :=
  { pi := pi
    fl := fun x => x
    cube := fun x => x ^ 3 }

/-- The arithmetic of the code: doubles. `Math.pow(x, 3)` is taken as correctly rounded;
it is exact at 0 and 1, the only arguments the theorems evaluate it at. -/
def binary64 : Arith ℚ :=
  { pi := mathPI
    fl := roundToDouble
    cube := fun x => roundToDouble (x ^ 3) }

section Numbers

variable {K : Type} [LinearOrderedField K] [FloorRing K]

/-- Rounding toward zero, the integer quotient behind the JavaScript `%` operator. -/
def truncate (x : K) : ℤ :=
  if 0 ≤ x then ⌊x⌋ else ⌈x⌉

/-- The JavaScript remainder `a % b` on numbers: `a - b * trunc(a / b)`, which has the
sign of the dividend. The remainder of two doubles is a double, so it is not rounded. -/
def jsRem (a b : K) : K :=
  a - b * (truncate (a / b) : ℤ)

/-- The expression `((rotation % (2 * Math.PI)) + 2 * Math.PI) % (2 * Math.PI)` of
`animateSpin` (script.js 580-582) and `computeWinnerIndexFromRotation` (935-936). -/
def normalizeRotation (A : Arith K) (rotation : K) : K :=
  jsRem (A.fl (jsRem rotation (A.fl (2 * A.pi)) + A.fl (2 * A.pi))) (A.fl (2 * A.pi))

/-- The winner computation shared, statement for statement, by `animateSpin`
(script.js 586-597) and `computeWinnerIndexFromRotation` (937-944): `len` is
`this.options.length`; `Math.floor` and the integer `%` (the truncating `Int.tmod`) are
exact. -/
def winningIndexOf (A : Arith K) (len : ℕ) (normalizedRotation : K) : ℤ :=
  let anglePerSlice : K := A.fl (A.fl (2 * A.pi) / (len : K))
  let pointerAngle : K := A.fl (-A.pi / 2)
  let winningIndex : ℤ := ⌊A.fl (A.fl (pointerAngle - normalizedRotation) / anglePerSlice)⌋
  ((winningIndex.tmod (len : ℤ)) + (len : ℤ)).tmod (len : ℤ)

/-- The `startAngle` that `drawWheel` gives slice `index` (script.js 437, 443). -/
def sliceStartAngle (A : Arith K) (len : ℕ) (currentRotation : K) (index : ℤ) : K :=
  A.fl (A.fl ((index : K) * A.fl (A.fl (2 * A.pi) / (len : K))) + currentRotation)

/-- The `endAngle` that `drawWheel` gives slice `index` (script.js 437, 444). -/
def sliceEndAngle (A : Arith K) (len : ℕ) (currentRotation : K) (index : ℤ) : K :=
  A.fl (A.fl (((index : K) + 1) * A.fl (A.fl (2 * A.pi) / (len : K))) + currentRotation)

end Numbers

/-! ## Values and state -/

/-- An entry of `this.options`: the object literal `{ text, color }`. -/
structure WheelOption where
  text : String
  color : String
deriving DecidableEq, Repr

/-- One call of `showToast(message, type)`. -/
structure Toast where
  message : String
  type : String
deriving DecidableEq, Repr

/-- What a property read on the `statistics` object can give: `undefined`, a count, `NaN`,
or a function or object inherited from `Object.prototype`. -/
inductive JsValue where
  | undefined
  | number (n : ℕ)
  | nan
  | inherited
deriving DecidableEq, Repr

/-- The values of `this.winnerToRemoveIndex`: never assigned by the constructor
(`undefined`), `null` after `hideRemoveWinnerModal`, an index after
`showRemoveWinnerModal`. -/
inductive JsIndex where
  | undefined
  | null
  | index (i : ℕ)
deriving DecidableEq, Repr

/-- The string built-ins the class calls: `String.prototype.trim` and
`String.prototype.toLowerCase`. -/
structure StringOps where
  trim : String → String
  toLowerCase : String → String

/-- The fields of a `SpinTheWheel` instance that the methods read and write, with
`optionInput.value`, `removeAfterWinCheckbox.checked`, `resultText.textContent` and
the log of toasts standing for the page. `selectedOptions` is the `Set` in insertion
order. -/
structure SpinTheWheel (K : Type) where
  options : List WheelOption
  isSpinning : Bool
  currentRotation : K
  statistics : List (String × JsValue)
  selectionMode : Bool
  selectedOptions : List ℕ
  currentWinner : Option WheelOption
  highlightIndex : Option ℕ
  highlightStartTime : Option ℤ
  highlightDuration : ℕ
  highlightProgress : K
  winnerToRemoveIndex : JsIndex
  removeAfterWin : Bool
  optionInput : String
  resultText : String
  toasts : List Toast

/-- The closure variables of `animateSpin` (script.js 560-563). -/
structure SpinAnimation (K : Type) where
  startRotation : K
  totalRotation : K
  startTime : ℤ

/-- The palette `this.colors` (script.js 7-24). -/
def colors : List String :=
  ["#374151", "#475569", "#334155", "#6366F1", "#2563EB", "#3B82F6", "#06B6D4", "#0891B2",
   "#0ea5a4", "#10B981", "#84CC16", "#F59E0B", "#F97316", "#EF4444", "#D946EF", "#8B5CF6"]

/-- The colour `this.colors[length % this.colors.length]`. -/
def colorAt (length : ℕ) : String :=
  colors.getD (length % colors.length) ""

/-- The suffix produced by `count > 1 ? "s" : ""`. -/
def plural (count : ℕ) : String :=
  if count > 1 then "s" else ""

/-- The double quote character as a string. -/
def quote : String :=
  String.singleton (Char.ofNat 34)

/-- The JavaScript `text.split("\n")` on the characters of a string. -/
def splitLines : List Char → List (List Char)
  | [] => [[]]
  | c :: cs =>
    match splitLines cs with
    | [] => [[]]
    | l :: ls => if c = Char.ofNat 10 then [] :: l :: ls else (c :: l) :: ls

/-- The JavaScript `array.splice(index, 1)`: a negative index counts from the end, and
the start is clamped to the array. -/
def splice1 {α : Type} (l : List α) (index : ℤ) : List α :=
  let start : ℤ := if index < 0 then max ((l.length : ℤ) + index) 0 else min index (l.length : ℤ)
  l.eraseIdx start.toNat

/-! ## The statistics object -/

/-- The property names every object inherits from `Object.prototype`. -/
def objectPrototypeKeys : List String :=
  ["constructor", "hasOwnProperty", "isPrototypeOf", "propertyIsEnumerable",
   "toLocaleString", "toString", "valueOf", "__proto__", "__defineGetter__",
   "__defineSetter__", "__lookupGetter__", "__lookupSetter__"]

/-- The own property `key` of the object, if it has one. -/
def ownProperty (statistics : List (String × JsValue)) (key : String) : Option JsValue :=
  (statistics.find? (fun p => decide (p.1 = key))).map (fun p => p.2)

/-- The read `this.statistics[key]`: the own property, else what the prototype chain
gives. -/
def getProperty (statistics : List (String × JsValue)) (key : String) : JsValue :=
  match ownProperty statistics key with
  | some v => v
  | none => if key ∈ objectPrototypeKeys then JsValue.inherited else JsValue.undefined

/-- The write `this.statistics[key] = v` of a number. An own property is overwritten;
otherwise one is created, except for `__proto__`, whose inherited setter ignores a
value that is neither an object nor `null`. -/
def setProperty (statistics : List (String × JsValue)) (key : String) (v : JsValue) :
    List (String × JsValue) :=
  if statistics.any (fun p => decide (p.1 = key)) then
    statistics.map (fun p => if p.1 = key then (key, v) else p)
  else if key = "__proto__" then statistics
  else statistics ++ [(key, v)]

/-- The test `!value`. -/
def isFalsy : JsValue → Bool
  | JsValue.undefined => true
  | JsValue.number n => decide (n = 0)
  | JsValue.nan => true
  | JsValue.inherited => false

/-- The value stored by `value++`: `ToNumber(value) + 1`. -/
def increment : JsValue → JsValue
  | JsValue.number n => JsValue.number (n + 1)
  | _ => JsValue.nan

/-- The count a read of the statistics object stands for: an absent (or reset) entry
counts 0. -/
def countOf : JsValue → ℕ
  | JsValue.number n => n
  | _ => 0

section Methods

variable {K : Type} [LinearOrderedField K] [FloorRing K]

/-- The method `showToast(message, type)`: the page shows the message. -/
def showToast (s : SpinTheWheel K) (message type : String) : SpinTheWheel K :=
  { s with toasts := s.toasts ++ [{ message := message, type := type }] }

/-- The method `updateOptionsDisplay` (script.js 367-415): apart from the page, it clears a
highlight whose index is no longer valid. -/
def updateOptionsDisplay (s : SpinTheWheel K) : SpinTheWheel K :=
  match s.highlightIndex with
  | some i =>
    if i ≥ s.options.length then
      { s with highlightIndex := none, highlightStartTime := none, highlightProgress := 0 }
    else s
  | none => s

/-- The `for` loop of `addOption` (script.js 182-209) with its counters `addedCount` and
`duplicateCount`; reaching the limit shows the warning and breaks. -/
def addOptionLoop (ops : StringOps) :
    List String → SpinTheWheel K → ℕ → ℕ → SpinTheWheel K × ℕ × ℕ
  | [], s, addedCount, duplicateCount => (s, addedCount, duplicateCount)
  | text :: rest, s, addedCount, duplicateCount =>
    if s.options.any (fun option => decide (ops.toLowerCase option.text = ops.toLowerCase text)) then
      addOptionLoop ops rest s addedCount (duplicateCount + 1)
    else if s.options.length ≥ 50 then
      (showToast s ("Maximum limit of 50 options reached. Added " ++ toString addedCount
        ++ " options.") "warning", addedCount, duplicateCount)
    else
      addOptionLoop ops rest
        { s with options := s.options ++ [{ text := text, color := colorAt s.options.length }] }
        (addedCount + 1) duplicateCount

/-- The array `optionsToAdd` of `addOption` (script.js 174-177): the trimmed input split
at newlines, each line trimmed, the empty ones dropped. -/
def optionsToAdd (ops : StringOps) (textInput : String) : List String :=
  ((splitLines textInput.data).map (fun l => ops.trim (String.mk l))).filter
    (fun text => decide (text ≠ ""))

/-- The method `addOption` (script.js 166-234), reading `optionInput.value`. -/
def addOption (ops : StringOps) (s : SpinTheWheel K) : SpinTheWheel K :=
  let textInput := ops.trim s.optionInput
  if textInput = "" then showToast s "Please enter an option" "error"
  else
    let r := addOptionLoop ops (optionsToAdd ops textInput) s 0 0
    let addedCount := r.2.1
    let duplicateCount := r.2.2
    let s1 := updateOptionsDisplay { r.1 with optionInput := "" }
    if addedCount > 0 then
      showToast s1 ("Successfully added " ++ toString addedCount ++ " option" ++ plural addedCount
        ++ (if duplicateCount > 0 then
              ". " ++ toString duplicateCount ++ " duplicate" ++ plural duplicateCount ++ " skipped."
            else "")) "success"
    else if duplicateCount > 0 then
      showToast s1 ("No new options added. " ++ toString duplicateCount ++ " duplicate"
        ++ plural duplicateCount ++ " found.") "warning"
    else s1

/-- The method `removeOption(index)` (script.js 236-244). -/
def removeOption (s : SpinTheWheel K) (index : ℤ) : SpinTheWheel K :=
  if s.isSpinning then s
  else
    showToast
      (updateOptionsDisplay { s with options := splice1 s.options index, selectedOptions := [] })
      "Option removed" "info"

/-- The method `toggleSelectionMode` (script.js 246-272). -/
def toggleSelectionMode (s : SpinTheWheel K) : SpinTheWheel K :=
  if s.isSpinning then s
  else
    let s1 := { s with selectionMode := !s.selectionMode, selectedOptions := [] }
    let s2 :=
      if s1.selectionMode then showToast s1 "Selection mode enabled - click options to select" "info"
      else showToast s1 "Selection mode disabled" "info"
    updateOptionsDisplay s2

/-- The method `toggleOption(index)` (script.js 274-284). -/
def toggleOption (s : SpinTheWheel K) (index : ℕ) : SpinTheWheel K :=
  if !s.selectionMode || s.isSpinning then s
  else if index ∈ s.selectedOptions then
    updateOptionsDisplay { s with selectedOptions := s.selectedOptions.filter (fun i => decide (i ≠ index)) }
  else
    updateOptionsDisplay { s with selectedOptions := s.selectedOptions ++ [index] }

/-- The method `selectAllOptions` (script.js 286-296). -/
def selectAllOptions (s : SpinTheWheel K) : SpinTheWheel K :=
  if !s.selectionMode || s.isSpinning then s
  else
    showToast (updateOptionsDisplay { s with selectedOptions := List.range s.options.length })
      ("Selected all " ++ toString s.options.length ++ " options") "success"

/-- The method `deselectAllOptions` (script.js 298-304). -/
def deselectAllOptions (s : SpinTheWheel K) : SpinTheWheel K :=
  if !s.selectionMode || s.isSpinning then s
  else showToast (updateOptionsDisplay { s with selectedOptions := [] }) "Deselected all options" "info"

/-- The method `removeSelectedOptions` (script.js 306-352); `confirmAnswer` is what the
`confirm` prompt returns. -/
def removeSelectedOptions (s : SpinTheWheel K) (confirmAnswer : Bool) : SpinTheWheel K :=
  if !s.selectionMode || s.isSpinning || s.selectedOptions.length == 0 then s
  else
    let selectedCount := s.selectedOptions.length
    let remainingCount : ℤ := (s.options.length : ℤ) - (selectedCount : ℤ)
    if remainingCount < 2 then
      showToast s "Cannot remove selected options - at least 2 options must remain" "error"
    else if !confirmAnswer then s
    else
      let sortedIndices := s.selectedOptions.insertionSort (fun a b => b ≤ a)
      let options := sortedIndices.foldl
        (fun (opts : List WheelOption) (index : ℕ) => splice1 opts (index : ℤ)) s.options
      showToast (updateOptionsDisplay { s with options := options, selectedOptions := [] })
        ("Removed " ++ toString selectedCount ++ " option" ++ plural selectedCount) "success"

/-- The method `updateStatistics(winner)` (script.js 644-651), without the copy written to
`localStorage`. -/
def updateStatistics (s : SpinTheWheel K) (winner : String) : SpinTheWheel K :=
  let st1 :=
    if isFalsy (getProperty s.statistics winner) then
      setProperty s.statistics winner (JsValue.number 0)
    else s.statistics
  { s with statistics := setProperty st1 winner (increment (getProperty st1 winner)) }

/-- The method `clearAllOptions` (script.js 678-692). -/
def clearAllOptions (s : SpinTheWheel K) (confirmAnswer : Bool) : SpinTheWheel K :=
  if s.isSpinning then s
  else if s.options.length == 0 then s
  else if confirmAnswer then
    showToast
      { updateOptionsDisplay { s with options := [], selectedOptions := [] } with
        resultText := "Add options and spin!" }
      "All options cleared" "info"
  else s

/-- The method `loadWheel(name, data)` (script.js 773-783); `dataOptions` is `data.options`. -/
def loadWheel (s : SpinTheWheel K) (name : String) (dataOptions : List WheelOption) :
    SpinTheWheel K :=
  if s.isSpinning then s
  else
    showToast
      { updateOptionsDisplay { s with options := dataOptions, selectedOptions := [] } with
        resultText := "Wheel loaded! Click spin to start!" }
      ("Wheel " ++ quote ++ name ++ quote ++ " loaded successfully") "success"

/-- The method `showRemoveWinnerModal(winner)` (script.js 856-873). -/
def showRemoveWinnerModal (s : SpinTheWheel K) (winner : WheelOption) : SpinTheWheel K :=
  match s.options.findIdx? (fun option =>
      decide (option.text = winner.text) && decide (option.color = winner.color)) with
  | none => s
  | some winnerIndex => { s with winnerToRemoveIndex := JsIndex.index winnerIndex }

/-- The method `hideRemoveWinnerModal` (script.js 875-878). -/
def hideRemoveWinnerModal (s : SpinTheWheel K) : SpinTheWheel K :=
  { s with winnerToRemoveIndex := JsIndex.null }

/-- The method `confirmRemoveWinner` (script.js 880-899). The result is `none` when the
handler stops on a `TypeError`: `removedOption` is `undefined` when the stored index is
`undefined` or past the end of the list. -/
def confirmRemoveWinner (s : SpinTheWheel K) : Option (SpinTheWheel K) :=
  if s.winnerToRemoveIndex ≠ JsIndex.null ∧ s.options.length > 2 then
    match s.winnerToRemoveIndex with
    | JsIndex.index i =>
      match s.options[i]? with
      | some removedOption =>
        some (hideRemoveWinnerModal
          (showToast
            (updateOptionsDisplay
              { s with options := splice1 s.options (i : ℤ), selectedOptions := [] })
            (quote ++ removedOption.text ++ quote ++ " removed from wheel") "info"))
      | none => none
    | _ => none
  else some (hideRemoveWinnerModal s)

/-- The method `animateHighlight` (script.js 910-930) at time `now`; the flag tells whether
another frame was requested. -/
def animateHighlight (A : Arith K) (s : SpinTheWheel K) (now : ℤ) : SpinTheWheel K × Bool :=
  match s.highlightIndex with
  | none => (s, false)
  | some _ =>
    let start : ℤ :=
      match s.highlightStartTime with
      | some t => if t = 0 then now else t
      | none => now
    let elapsed : ℤ := now - start
    let progress : K := min (A.fl ((elapsed : K) / (s.highlightDuration : K))) 1
    let s1 := { s with highlightProgress := progress }
    if progress < 1 then (s1, true)
    else
      ({ s1 with highlightIndex := none, highlightStartTime := none, highlightProgress := 0 },
        false)

/-- The method `onSpinComplete(winner)` (script.js 614-642). With `winner` undefined the
read `winner.text` is a `TypeError` and the result is `none`. The modal of line 637 is
opened by a later timer, see `removeWinnerModalScheduled`. -/
def onSpinComplete (s : SpinTheWheel K) (winner : Option WheelOption) :
    Option (SpinTheWheel K) :=
  match winner with
  | none => none
  | some w =>
    let s1 := { s with isSpinning := false, currentWinner := some w, resultText := w.text }
    some (showToast (updateStatistics s1 w.text) ("Winner: " ++ w.text) "success")

/-- The condition of script.js 637 under which `onSpinComplete` schedules
`showRemoveWinnerModal`. -/
def removeWinnerModalScheduled (s : SpinTheWheel K) : Bool :=
  s.removeAfterWin && decide (s.options.length > 2)

/-- The method `spin` (script.js 523-557) up to the call of `animateSpin`; `r1` and `r2`
are the two results of `Math.random()`. The second component is the `finalRotation`
handed to `animateSpin`, if the spin starts. -/
def spin (A : Arith K) (s : SpinTheWheel K) (r1 r2 : K) : SpinTheWheel K × Option K :=
  if s.isSpinning || s.options.length == 0 then (s, none)
  else if s.options.length < 2 then
    (showToast s "Add at least 2 options to spin" "error", none)
  else
    let s1 := if s.selectionMode then toggleSelectionMode s else s
    let s2 := { s1 with isSpinning := true }
    let minSpins : K := 5
    let maxSpins : K := 10
    let spins : K := A.fl (A.fl (r1 * A.fl (maxSpins - minSpins)) + minSpins)
    let randomOffset : K := A.fl (A.fl (r2 * 2) * A.pi)
    let finalRotation : K :=
      A.fl (A.fl (s2.currentRotation + A.fl (A.fl (spins * 2) * A.pi)) + randomOffset)
    ({ s2 with highlightIndex := none, highlightStartTime := none, highlightProgress := 0 },
      some finalRotation)

/-- The start of `animateSpin(finalRotation)` (script.js 559-563) at time `startTime`. -/
def animateSpin (A : Arith K) (s : SpinTheWheel K) (finalRotation : K) (startTime : ℤ) :
    SpinAnimation K :=
  { startRotation := s.currentRotation
    totalRotation := A.fl (finalRotation - s.currentRotation)
    startTime := startTime }

/-- One run of the frame callback `animate` (script.js 565-609). `currentTime`,
`highlightStart` and `highlightNow` are the readings of `Date.now()` at lines 566, 602
and 913. The flag tells whether another frame was requested; the result is `none` when
`onSpinComplete` stops on a `TypeError`. -/
def animate (A : Arith K) (a : SpinAnimation K) (s : SpinTheWheel K)
    (currentTime highlightStart highlightNow : ℤ) : Option (SpinTheWheel K × Bool) :=
  let elapsed : ℤ := currentTime - a.startTime
  let duration : K := 4000
  let progress : K := min (A.fl ((elapsed : K) / duration)) 1
  let easeOut : K := A.fl (1 - A.cube (A.fl (1 - progress)))
  let s1 :=
    { s with currentRotation := A.fl (a.startRotation + A.fl (a.totalRotation * easeOut)) }
  if progress < 1 then some (s1, true)
  else
    let normalizedRotation : K := normalizeRotation A s1.currentRotation
    let s2 := { s1 with currentRotation := normalizedRotation }
    let winningIndex : ℤ := winningIndexOf A s2.options.length normalizedRotation
    let winner := s2.options[winningIndex.toNat]?
    let s3 :=
      { s2 with
        highlightIndex := some winningIndex.toNat
        highlightStartTime := some highlightStart
        highlightDuration := 1600
        highlightProgress := 0 }
    let s4 := (animateHighlight A s3 highlightNow).1
    (onSpinComplete s4 winner).map (fun s5 => (s5, false))

/-- The value `startRotation + totalRotation * easeOut` of script.js 571-573 in the frame
where `progress` is 1. -/
def lastFrameRotation (A : Arith K) (a : SpinAnimation K) : K :=
  A.fl (a.startRotation + A.fl (a.totalRotation * A.fl (1 - A.cube (A.fl (1 - 1)))))

/-- The method `computeWinnerIndexFromRotation(rotation)` (script.js 932-946). -/
def computeWinnerIndexFromRotation (A : Arith K) (s : SpinTheWheel K) (rotation : K) : ℤ :=
  if s.options.length == 0 then -1
  else winningIndexOf A s.options.length (normalizeRotation A rotation)

end Methods

/-- A wheel as the constructor leaves it before the default options are added, holding the
given options. -/
def wheelOf {K : Type} [LinearOrderedField K] (options : List WheelOption) : SpinTheWheel K :=
  { options := options
    isSpinning := false
    currentRotation := 0
    statistics := []
    selectionMode := false
    selectedOptions := []
    currentWinner := none
    highlightIndex := none
    highlightStartTime := none
    highlightDuration := 1600
    highlightProgress := 0
    winnerToRemoveIndex := JsIndex.undefined
    removeAfterWin := false
    optionInput := ""
    resultText := ""
    toasts := [] }

/-- The built-ins `trim` and `toLowerCase` as they act on ASCII text without form feeds or
vertical tabs. -/
def asciiStringOps : StringOps :=
  { trim := String.trim
    toLowerCase := String.toLower }

/-- Fifty options with distinct texts, coloured the way `addOption` colours them. -/
def fiftyOptions : List WheelOption :=
  (List.range 50).map (fun i => { text := "Option " ++ toString i, color := colorAt i })

/-- The scenario of bulk removal of 3 of 4 options: selection mode on, the first three
options selected. -/
def bulkRemoveScenario : SpinTheWheel ℚ :=
  { (wheelOf [⟨"A", "#374151"⟩, ⟨"B", "#475569"⟩, ⟨"C", "#334155"⟩, ⟨"D", "#6366F1"⟩] :
      SpinTheWheel ℚ) with
    selectionMode := true
    selectedOptions := [0, 1, 2] }

/-- The options "a", "b", "c", ... in a list of `count` entries, coloured the way
`addOption` colours them. -/
def optionsOfCount (count : ℕ) : List WheelOption :=
  (List.range count).map
    (fun i => { text := String.singleton (Char.ofNat (97 + i)), color := colorAt i })

/-- The line feed as a string. -/
def newline : String :=
  String.singleton (Char.ofNat 10)

/-- The ASCII characters that `trim` strips: tab, line feed, vertical tab, form feed,
carriage return and space. -/
def isAsciiWhiteSpace (c : Char) : Bool :=
  decide (c.toNat ∈ [9, 10, 11, 12, 13, 32])

/-- The characters left when the white space at both ends is stripped. -/
def trimChars (cs : List Char) : List Char :=
  ((cs.dropWhile isAsciiWhiteSpace).reverse.dropWhile isAsciiWhiteSpace).reverse

/-- The built-ins `trim` and `toLowerCase` as they act on ASCII text, by structural
recursion on the characters. -/
def simpleStringOps : StringOps :=
  { trim := fun text => String.mk (trimChars text.data)
    toLowerCase := fun text => String.mk (text.data.map Char.toLower) }

/-- The list restricted to the positions that are not in `selected`, in the original
order; the positions of `l` are counted from `start`. -/
def keepUnselected {α : Type} (selected : List ℕ) : ℕ → List α → List α
  | _, [] => []
  | start, x :: xs =>
    if start ∈ selected then keepUnselected selected (start + 1) xs
    else x :: keepUnselected selected (start + 1) xs

/-- No two options have the same text once lower-cased. -/
def UniqueTexts (ops : StringOps) (options : List WheelOption) : Prop :=
  options.Pairwise (fun a b => ops.toLowerCase a.text ≠ ops.toLowerCase b.text)

/-- The highlight is off or points at an existing option. -/
def HighlightValid {K : Type} (s : SpinTheWheel K) : Prop :=
  s.highlightIndex = none ∨ ∃ i : ℕ, s.highlightIndex = some i ∧ i < s.options.length

/-- The highlight of `s'` is settled with respect to the state `s` before the operation:
if the index highlighted in `s` is at or past the new option count, the three highlight
fields of `s'` are cleared; and the highlight of `s'` is valid. -/
def HighlightSettled {K : Type} [LinearOrderedField K] (s s' : SpinTheWheel K) : Prop :=
  (∀ i : ℕ, s.highlightIndex = some i → s'.options.length ≤ i →
    s'.highlightIndex = none ∧ s'.highlightStartTime = none ∧ s'.highlightProgress = 0) ∧
  HighlightValid s'
/-! ## Arithmetic of the remainder operators -/

/-- Two angles of `[0, 2π)` that differ by a whole number of turns are equal. -/
theorem eq_of_mem_of_turns {K : Type} [LinearOrderedField K] {pi x y : K} (hpi : 0 < pi) (hx : 0 ≤ x ∧ x < 2 * pi)
    (hy : 0 ≤ y ∧ y < 2 * pi) (m : ℤ) (h : x = y + 2 * pi * (m : K)) : x = y := by
  have hT : (0 : K) < 2 * pi := by linarith
  have hm : m = 0 := by
    rcases lt_trichotomy m 0 with hlt | heq | hgt
    · exfalso
      have : (m : K) ≤ -1 := by exact_mod_cast Int.le_sub_one_of_lt hlt
      nlinarith [hx.1, hy.2]
    · exact heq
    · exfalso
      have : (1 : K) ≤ (m : K) := by exact_mod_cast hgt
      nlinarith [hx.2, hy.1]
  subst hm
  simpa using h

section NumberLemmas

variable {K : Type} [LinearOrderedField K] [FloorRing K]

theorem jsRem_exists_int (a b : K) : ∃ k : ℤ, jsRem a b = a - b * (k : K) :=
  ⟨truncate (a / b), rfl⟩

theorem jsRem_nonneg_lt {a b : K} (ha : 0 ≤ a) (hb : 0 < b) :
    0 ≤ jsRem a b ∧ jsRem a b < b := by
  have hq : 0 ≤ a / b := div_nonneg ha hb.le
  have h1 : ((⌊a / b⌋ : ℤ) : K) ≤ a / b := Int.floor_le _
  have h2 : a / b < (⌊a / b⌋ : ℤ) + 1 := Int.lt_floor_add_one _
  rw [le_div_iff₀ hb] at h1
  rw [div_lt_iff₀ hb] at h2
  simp only [jsRem, truncate, if_pos hq]
  constructor <;> nlinarith

theorem neg_lt_jsRem (a : K) {b : K} (hb : 0 < b) : -b < jsRem a b := by
  by_cases hq : 0 ≤ a / b
  · have ha : 0 ≤ a := by
      by_contra h
      exact absurd hq (not_le.mpr (div_neg_of_neg_of_pos (not_le.mp h) hb))
    linarith [(jsRem_nonneg_lt ha hb).1]
  · have h1 : ((⌈a / b⌉ : ℤ) : K) < a / b + 1 := Int.ceil_lt_add_one _
    rw [← sub_lt_iff_lt_add, lt_div_iff₀ hb] at h1
    simp only [jsRem, truncate, if_neg hq]
    nlinarith

theorem jsRem_lt (a : K) {b : K} (hb : 0 < b) : jsRem a b < b := by
  by_cases hq : 0 ≤ a / b
  · have ha : 0 ≤ a := by
      by_contra h
      exact absurd hq (not_le.mpr (div_neg_of_neg_of_pos (not_le.mp h) hb))
    exact (jsRem_nonneg_lt ha hb).2
  · have h1 : a / b ≤ ((⌈a / b⌉ : ℤ) : K) := Int.le_ceil _
    rw [div_le_iff₀ hb] at h1
    simp only [jsRem, truncate, if_neg hq]
    nlinarith

/-- A whole turn added to a non-negative angle leaves the remainder unchanged. -/
theorem jsRem_add_self {a b : K} (ha : 0 ≤ a) (hb : 0 < b) : jsRem (a + b) b = jsRem a b := by
  have hq : 0 ≤ a / b := div_nonneg ha hb.le
  have hq' : 0 ≤ (a + b) / b := div_nonneg (by linarith) hb.le
  have hdiv : (a + b) / b = a / b + 1 := by
    field_simp
  simp only [jsRem, truncate, if_pos hq, if_pos hq']
  rw [hdiv, Int.floor_add_one]
  push_cast
  ring

/-- The normalised rotation lies in `[0, 2 * Math.PI)`, whatever the rounding, as long as
the rounding keeps non-negative numbers non-negative. -/
theorem normalizeRotation_mem (A : Arith K) (hT : 0 < A.fl (2 * A.pi))
    (hsign : ∀ y : K, 0 ≤ y → 0 ≤ A.fl y) (rotation : K) :
    0 ≤ normalizeRotation A rotation ∧ normalizeRotation A rotation < A.fl (2 * A.pi) := by
  have h := neg_lt_jsRem rotation hT
  exact jsRem_nonneg_lt (hsign _ (by linarith)) hT

/-- The double `%` of the index normalisation is the Euclidean remainder. -/
theorem tmod_add_tmod_eq_emod (z : ℤ) {n : ℤ} (hn : 0 < n) :
    ((z.tmod n) + n).tmod n = z % n := by
  have hlt : z.tmod n < n := Int.tmod_lt_of_pos z hn
  have hgt : -n < z.tmod n := by
    rcases le_or_lt 0 z with hz | hz
    · have := Int.tmod_nonneg n hz
      omega
    · have h1 : (-z).tmod n < n := Int.tmod_lt_of_pos (-z) hn
      rw [Int.tmod_def, Int.neg_tdiv] at h1
      rw [Int.tmod_def]
      have h2 : n * -(z.tdiv n) = -(n * z.tdiv n) := by ring
      rw [h2] at h1
      omega
  have hdef : z.tmod n = z - n * z.tdiv n := Int.tmod_def z n
  rw [Int.tmod_eq_emod (by omega) hn.le, hdef]
  have : z - n * z.tdiv n + n = z + n * (1 - z.tdiv n) := by ring
  rw [this, Int.add_mul_emod_self_left]

/-- For a non-empty wheel the computed index is the Euclidean remainder of the floor. -/
theorem winningIndexOf_eq_emod (A : Arith K) {len : ℕ} (hlen : 0 < len) (x : K) :
    winningIndexOf A len x
      = ⌊A.fl (A.fl (A.fl (-A.pi / 2) - x) / A.fl (A.fl (2 * A.pi) / (len : K)))⌋
        % (len : ℤ) :=
  tmod_add_tmod_eq_emod _ (by exact_mod_cast hlen)

theorem winningIndexOf_nonneg (A : Arith K) {len : ℕ} (hlen : 0 < len) (x : K) :
    0 ≤ winningIndexOf A len x := by
  rw [winningIndexOf_eq_emod A hlen]
  exact Int.emod_nonneg _ (by exact_mod_cast hlen.ne')

theorem winningIndexOf_lt (A : Arith K) {len : ℕ} (hlen : 0 < len) (x : K) :
    winningIndexOf A len x < (len : ℤ) := by
  rw [winningIndexOf_eq_emod A hlen]
  exact Int.emod_lt_of_pos _ (by exact_mod_cast hlen)

theorem animateHighlight_currentRotation (A : Arith K) (s : SpinTheWheel K) (now : ℤ) :
    (animateHighlight A s now).1.currentRotation = s.currentRotation := by
  unfold animateHighlight
  split
  · rfl
  · dsimp only
    split <;> rfl

theorem animateHighlight_options (A : Arith K) (s : SpinTheWheel K) (now : ℤ) :
    (animateHighlight A s now).1.options = s.options := by
  unfold animateHighlight
  split
  · rfl
  · dsimp only
    split <;> rfl

/-- The last frame of the animation: once the rounded quotient `elapsed / 4000` has
reached 1, `animate` on a non-empty wheel returns, requests no further frame, stores the
normalised rotation of that frame and announces the option at the computed index. -/
theorem animate_complete (A : Arith K) (a : SpinAnimation K) (s : SpinTheWheel K)
    (currentTime highlightStart highlightNow : ℤ) (hlen : 0 < s.options.length)
    (hprog : 1 ≤ A.fl (((currentTime - a.startTime : ℤ) : K) / 4000)) :
    ∃ s' : SpinTheWheel K,
      animate A a s currentTime highlightStart highlightNow = some (s', false) ∧
      s'.currentRotation = normalizeRotation A (lastFrameRotation A a) ∧
      s'.options = s.options ∧ s'.isSpinning = false ∧
      s'.currentWinner = s.options[(winningIndexOf A s.options.length
        (normalizeRotation A (lastFrameRotation A a))).toNat]? := by
  have hmin : min (A.fl (((currentTime - a.startTime : ℤ) : K) / 4000)) 1 = 1 :=
    min_eq_right hprog
  have h0 := winningIndexOf_nonneg A hlen (normalizeRotation A (lastFrameRotation A a))
  have h1 := winningIndexOf_lt A hlen (normalizeRotation A (lastFrameRotation A a))
  have hi : (winningIndexOf A s.options.length
      (normalizeRotation A (lastFrameRotation A a))).toNat < s.options.length := by
    omega
  have hlast : A.fl (a.startRotation + A.fl (a.totalRotation * A.fl (1 - A.cube (A.fl (1 - 1)))))
      = lastFrameRotation A a := rfl
  simp only [animate, hmin, hlast, lt_irrefl, if_false, List.getElem?_eq_getElem hi,
    onSpinComplete, Option.map_some']
  refine ⟨_, rfl, ?_, ?_, ?_, ?_⟩ <;>
    simp [showToast, updateStatistics, animateHighlight_currentRotation,
      animateHighlight_options]

/-- A projection of the result of `animate` that can be computed determines the stored
rotation and the announced winner. -/
theorem animate_of_eval (A : Arith K) (a : SpinAnimation K) (s : SpinTheWheel K)
    (currentTime highlightStart highlightNow : ℤ) (r : K) (w : Option WheelOption)
    (h : (animate A a s currentTime highlightStart highlightNow).map
      (fun p => (p.1.currentRotation, p.1.currentWinner, p.2)) = some (r, w, false)) :
    ∃ s' : SpinTheWheel K,
      animate A a s currentTime highlightStart highlightNow = some (s', false) ∧
      s'.currentRotation = r ∧ s'.currentWinner = w := by
  cases hres : animate A a s currentTime highlightStart highlightNow with
  | none => simp [hres] at h
  | some p =>
    obtain ⟨s', flag⟩ := p
    simp only [hres, Option.map_some', Option.some.injEq, Prod.mk.injEq] at h
    obtain ⟨hr, hw, hf⟩ := h
    exact ⟨s', by rw [hf], hr, hw⟩

end NumberLemmas

/-! ## The formula in exact arithmetic -/

section ExactArithmetic

variable {K : Type} [LinearOrderedField K] [FloorRing K]

theorem normalizeRotation_exact (pi rotation : K) :
    normalizeRotation (exactArith pi) rotation
      = jsRem (jsRem rotation (2 * pi) + 2 * pi) (2 * pi) :=
  rfl

theorem winningIndexOf_exact_eq_emod (pi : K) {len : ℕ} (hlen : 0 < len) (x : K) :
    winningIndexOf (exactArith pi) len x
      = ⌊(-pi / 2 - x) / ((2 * pi) / (len : K))⌋ % (len : ℤ) :=
  winningIndexOf_eq_emod (exactArith pi) hlen x

/-- In exact arithmetic the normalised rotation lies in `[0, 2π)`. -/
theorem normalizeRotation_exact_mem {pi : K} (hpi : 0 < pi) (rotation : K) :
    0 ≤ normalizeRotation (exactArith pi) rotation ∧
    normalizeRotation (exactArith pi) rotation < 2 * pi :=
  normalizeRotation_mem (exactArith pi) (show (0 : K) < 2 * pi by linarith)
    (fun _ h => h) rotation

/-- In exact arithmetic the normalised rotation differs from the rotation by a whole
number of turns. -/
theorem normalizeRotation_exact_exists_int (pi rotation : K) :
    ∃ m : ℤ, normalizeRotation (exactArith pi) rotation = rotation + 2 * pi * (m : K) := by
  obtain ⟨k1, h1⟩ := jsRem_exists_int rotation (2 * pi)
  obtain ⟨k2, h2⟩ := jsRem_exists_int (jsRem rotation (2 * pi) + 2 * pi) (2 * pi)
  refine ⟨1 - k1 - k2, ?_⟩
  rw [normalizeRotation_exact, h2, h1]
  push_cast
  ring

/-- In exact arithmetic the slice with the computed index, drawn at rotation `x`,
contains the pointer angle `-π/2` up to whole turns. -/
theorem winningIndexOf_exact_pointer {pi : K} (hpi : 0 < pi) {len : ℕ} (hlen : 0 < len)
    (x : K) :
    ∃ k : ℤ,
      sliceStartAngle (exactArith pi) len x (winningIndexOf (exactArith pi) len x)
        ≤ -pi / 2 + 2 * pi * (k : K) ∧
      -pi / 2 + 2 * pi * (k : K)
        < sliceEndAngle (exactArith pi) len x (winningIndexOf (exactArith pi) len x) := by
  have hl : (0 : K) < (len : K) := by exact_mod_cast hlen
  have ha : (0 : K) < (2 * pi) / (len : K) := div_pos (by linarith) hl
  have hla : (len : K) * ((2 * pi) / (len : K)) = 2 * pi := by field_simp
  have h1 := Int.floor_le ((-pi / 2 - x) / ((2 * pi) / (len : K)))
  have h2 := Int.lt_floor_add_one ((-pi / 2 - x) / ((2 * pi) / (len : K)))
  rw [le_div_iff₀ ha] at h1
  rw [div_lt_iff₀ ha] at h2
  refine ⟨-(⌊(-pi / 2 - x) / ((2 * pi) / (len : K))⌋ / (len : ℤ)), ?_⟩
  rw [winningIndexOf_exact_eq_emod pi hlen, Int.emod_def]
  simp only [sliceStartAngle, sliceEndAngle, exactArith]
  push_cast
  generalize ((⌊(-pi / 2 - x) / ((2 * pi) / (len : K))⌋ : ℤ) : K) = w0 at h1 h2 ⊢
  generalize (((⌊(-pi / 2 - x) / ((2 * pi) / (len : K))⌋ / (len : ℤ) : ℤ)) : K) = q
  generalize (2 * pi) / (len : K) = a at ha hla h1 h2 ⊢
  constructor
  · have : (w0 - (len : K) * q) * a = w0 * a - q * ((len : K) * a) := by ring
    rw [this, hla]
    linarith
  · have : (w0 - (len : K) * q + 1) * a = (w0 + 1) * a - q * ((len : K) * a) := by ring
    rw [this, hla]
    linarith

/-- In exact arithmetic the normal form is unchanged by a whole turn of the rotation. -/
theorem normalizeRotation_exact_add_turn {pi : K} (hpi : 0 < pi) (rotation : K) :
    normalizeRotation (exactArith pi) (rotation + 2 * pi)
      = normalizeRotation (exactArith pi) rotation := by
  obtain ⟨m1, h1⟩ := normalizeRotation_exact_exists_int pi (rotation + 2 * pi)
  obtain ⟨m2, h2⟩ := normalizeRotation_exact_exists_int pi rotation
  refine eq_of_mem_of_turns hpi (normalizeRotation_exact_mem hpi _)
    (normalizeRotation_exact_mem hpi _) (1 + m1 - m2) ?_
  rw [h1, h2]
  push_cast
  ring

/-- In exact arithmetic a rotation that already lies in `[0, 2π)` is its own normal
form. -/
theorem normalizeRotation_exact_of_mem {pi x : K} (hpi : 0 < pi) (hx : 0 ≤ x ∧ x < 2 * pi) :
    normalizeRotation (exactArith pi) x = x := by
  obtain ⟨m, h⟩ := normalizeRotation_exact_exists_int pi x
  exact eq_of_mem_of_turns hpi (normalizeRotation_exact_mem hpi x) hx m h

/-- Four options, settled angle 0, exact arithmetic: the formula gives `floor(-1) = -1`,
normalised to 3. -/
theorem winningIndexOf_exact_four_zero {pi : K} (hpi : 0 < pi) :
    winningIndexOf (exactArith pi) 4 (normalizeRotation (exactArith pi) 0) = 3 := by
  have hx : normalizeRotation (exactArith pi) (0 : K) = 0 :=
    normalizeRotation_exact_of_mem hpi ⟨le_refl 0, by linarith⟩
  have hq : (-pi / 2 - 0) / ((2 * pi) / ((4 : ℕ) : K)) = ((-1 : ℤ) : K) := by
    have : pi ≠ 0 := hpi.ne'
    push_cast
    field_simp
    ring
  rw [hx, winningIndexOf_exact_eq_emod pi (by norm_num), hq, Int.floor_intCast]
  rfl

/-- In exact arithmetic the rotation `-π/2` is normalised to `3π/2`. -/
theorem normalizeRotation_exact_neg_half_pi {pi : K} (hpi : 0 < pi) :
    normalizeRotation (exactArith pi) (-pi / 2) = 3 * pi / 2 := by
  obtain ⟨m, hm⟩ := normalizeRotation_exact_exists_int pi (-pi / 2)
  refine eq_of_mem_of_turns hpi (normalizeRotation_exact_mem hpi _)
    ⟨by linarith, by linarith⟩ (m - 1) ?_
  rw [hm]
  push_cast
  ring

/-- In exact arithmetic, at rotation `-π/2` the formula gives `floor(-n) = -n`,
normalised to 0. -/
theorem winningIndexOf_exact_neg_half_pi {pi : K} (hpi : 0 < pi) {len : ℕ} (hlen : 0 < len) :
    winningIndexOf (exactArith pi) len (normalizeRotation (exactArith pi) (-pi / 2)) = 0 := by
  have hl : (len : K) ≠ 0 := by exact_mod_cast hlen.ne'
  have hq : (-pi / 2 - 3 * pi / 2) / ((2 * pi) / (len : K)) = ((-(len : ℤ) : ℤ) : K) := by
    have : pi ≠ 0 := hpi.ne'
    push_cast
    field_simp
    ring
  rw [normalizeRotation_exact_neg_half_pi hpi, winningIndexOf_exact_eq_emod pi hlen, hq,
    Int.floor_intCast]
  simp

/-- In exact arithmetic the rotation of the last frame is the target of the spin. -/
theorem lastFrameRotation_exact (pi : K) (s : SpinTheWheel K) (finalRotation : K)
    (startTime : ℤ) :
    lastFrameRotation (exactArith pi) (animateSpin (exactArith pi) s finalRotation startTime)
      = finalRotation := by
  simp [lastFrameRotation, animateSpin, exactArith]

end ExactArithmetic

/-! ## The rounding to doubles -/

theorem log2Fuel_spec (fuel n : ℕ) (hn : 0 < n) (hf : n ≤ fuel) :
    2 ^ log2Fuel fuel n ≤ n ∧ n < 2 ^ (log2Fuel fuel n + 1) := by
  induction fuel generalizing n with
  | zero => omega
  | succ fuel ih =>
    unfold log2Fuel
    split
    · simp only [pow_zero, zero_add, pow_one]
      omega
    · obtain ⟨h1, h3⟩ := ih (n / 2) (by omega) (by omega)
      rw [pow_succ] at h3
      rw [pow_succ, pow_succ, pow_succ]
      generalize 2 ^ log2Fuel fuel (n / 2) = p at h1 h3 ⊢
      constructor <;> omega

/-- The leading bit: `2 ^ bitLog n ≤ n < 2 ^ (bitLog n + 1)` for `n ≥ 1`. -/
theorem bitLog_spec (n : ℕ) (hn : 0 < n) : 2 ^ bitLog n ≤ n ∧ n < 2 ^ (bitLog n + 1) :=
  log2Fuel_spec n n hn (le_refl n)

theorem twoPow_eq_zpow (e : ℤ) : twoPow e = (2 : ℚ) ^ e := by
  unfold twoPow
  split
  · rename_i h
    obtain ⟨n, rfl⟩ := Int.eq_ofNat_of_zero_le h
    simp
  · rename_i h
    obtain ⟨n, rfl⟩ := Int.exists_eq_neg_ofNat (le_of_lt (not_le.mp h))
    simp

theorem twoPow_pos (e : ℤ) : 0 < twoPow e := by
  rw [twoPow_eq_zpow]
  positivity

/-- The binary exponent is not too large: `2 ^ binade x ≤ |x|` for `x ≠ 0`. -/
theorem twoPow_binade_le (x : ℚ) (hx : x ≠ 0) : twoPow (binade x) ≤ |x| := by
  unfold binade
  dsimp only
  split
  · assumption
  · have hnum : 0 < x.num.natAbs := Int.natAbs_pos.mpr (Rat.num_ne_zero.mpr hx)
    have hden : 0 < x.den := x.den_pos
    obtain ⟨hn1, -⟩ := bitLog_spec _ hnum
    obtain ⟨-, hd2⟩ := bitLog_spec _ hden
    have habs : |x| = (x.num.natAbs : ℚ) / (x.den : ℚ) := by
      conv_lhs => rw [← Rat.num_div_den x]
      rw [abs_div, Nat.abs_cast, Nat.cast_natAbs, Int.cast_abs]
    rw [habs, twoPow_eq_zpow]
    have hd0 : (0 : ℚ) < (x.den : ℚ) := by exact_mod_cast hden
    rw [le_div_iff₀ hd0]
    have hn1' : (2 : ℚ) ^ (bitLog x.num.natAbs : ℤ) ≤ (x.num.natAbs : ℚ) := by
      rw [zpow_natCast]
      exact_mod_cast hn1
    have hd2' : (x.den : ℚ) ≤ (2 : ℚ) ^ ((bitLog x.den : ℤ) + 1) := by
      have : ((x.den : ℕ) : ℚ) ≤ ((2 ^ (bitLog x.den + 1) : ℕ) : ℚ) := by
        exact_mod_cast hd2.le
      rw [show ((bitLog x.den : ℤ) + 1) = ((bitLog x.den + 1 : ℕ) : ℤ) by push_cast; ring,
        zpow_natCast]
      exact_mod_cast this
    have hsplit : (2 : ℚ) ^ ((bitLog x.num.natAbs : ℤ) - (bitLog x.den : ℤ) - 1)
        * (2 : ℚ) ^ ((bitLog x.den : ℤ) + 1) = (2 : ℚ) ^ (bitLog x.num.natAbs : ℤ) := by
      rw [← zpow_add₀ (by norm_num : (2 : ℚ) ≠ 0)]
      congr 1
      ring
    calc (2 : ℚ) ^ ((bitLog x.num.natAbs : ℤ) - (bitLog x.den : ℤ) - 1) * (x.den : ℚ)
        ≤ (2 : ℚ) ^ ((bitLog x.num.natAbs : ℤ) - (bitLog x.den : ℤ) - 1)
            * (2 : ℚ) ^ ((bitLog x.den : ℤ) + 1) :=
          mul_le_mul_of_nonneg_left hd2' (by positivity)
      _ = (2 : ℚ) ^ (bitLog x.num.natAbs : ℤ) := hsplit
      _ ≤ (x.num.natAbs : ℚ) := hn1'

theorem floor_le_roundHalfEven (q : ℚ) : ⌊q⌋ ≤ roundHalfEven q := by
  unfold roundHalfEven
  dsimp only
  split_ifs <;> omega

/-- Rounding to the nearest integer moves a number by at most one half. -/
theorem roundHalfEven_error (q : ℚ) : |(roundHalfEven q : ℚ) - q| ≤ 1 / 2 := by
  have h1 := Int.floor_le q
  have h2 := Int.lt_floor_add_one q
  unfold roundHalfEven
  dsimp only
  rw [abs_le]
  split_ifs <;> push_cast <;> constructor <;> linarith

/-- The rounding keeps non-negative numbers non-negative. -/
theorem roundToDouble_nonneg (x : ℚ) (hx : 0 ≤ x) : 0 ≤ roundToDouble x := by
  unfold roundToDouble
  split
  · exact le_refl 0
  · dsimp only
    have ht := twoPow_pos (max (binade x - 52) (-1074))
    have hq : 0 ≤ x / twoPow (max (binade x - 52) (-1074)) := div_nonneg hx ht.le
    have hf : (0 : ℤ) ≤ roundHalfEven (x / twoPow (max (binade x - 52) (-1074))) :=
      le_trans (Int.floor_nonneg.mpr hq) (floor_le_roundHalfEven _)
    have hf' : (0 : ℚ) ≤ (roundHalfEven (x / twoPow (max (binade x - 52) (-1074))) : ℚ) := by
      exact_mod_cast hf
    exact mul_nonneg hf' ht.le

/-- The rounding does not take a number that is at least 1 below 1. -/
theorem roundToDouble_one_le (x : ℚ) (hx : 1 ≤ x) : 1 ≤ roundToDouble x := by
  have hx0 : x ≠ 0 := by
    intro h
    rw [h] at hx
    norm_num at hx
  have hb := twoPow_binade_le x hx0
  rw [abs_of_nonneg (by linarith), twoPow_eq_zpow] at hb
  unfold roundToDouble
  rw [if_neg hx0]
  dsimp only
  generalize hu : max (binade x - 52) (-1074) = u
  have ht : 0 < twoPow u := twoPow_pos u
  have htz : twoPow u = (2 : ℚ) ^ u := twoPow_eq_zpow u
  by_cases hneg : u ≤ 0
  · obtain ⟨n, hn⟩ := Int.exists_eq_neg_ofNat hneg
    have hinv : twoPow u * (2 : ℚ) ^ n = 1 := by
      rw [htz, hn, zpow_neg, zpow_natCast]
      exact inv_mul_cancel₀ (by positivity)
    have hq : x / twoPow u = x * (2 : ℚ) ^ n := by
      rw [div_eq_iff ht.ne']
      calc x = x * 1 := (mul_one x).symm
        _ = x * ((2 : ℚ) ^ n * twoPow u) := by rw [mul_comm ((2 : ℚ) ^ n), hinv]
        _ = x * (2 : ℚ) ^ n * twoPow u := by ring
    have hN : (((2 ^ n : ℕ) : ℤ) : ℚ) ≤ x / twoPow u := by
      rw [hq]
      push_cast
      have : (0 : ℚ) < (2 : ℚ) ^ n := by positivity
      nlinarith
    have hfl : ((2 ^ n : ℕ) : ℤ) ≤ roundHalfEven (x / twoPow u) :=
      le_trans (Int.le_floor.mpr hN) (floor_le_roundHalfEven _)
    have hfl' : ((2 : ℚ) ^ n) ≤ (roundHalfEven (x / twoPow u) : ℚ) := by
      have : (((2 ^ n : ℕ) : ℤ) : ℚ) ≤ (roundHalfEven (x / twoPow u) : ℚ) := by
        exact_mod_cast hfl
      simpa using this
    calc (1 : ℚ) = (2 : ℚ) ^ n * twoPow u := by rw [mul_comm, hinv]
      _ ≤ (roundHalfEven (x / twoPow u) : ℚ) * twoPow u :=
        mul_le_mul_of_nonneg_right hfl' ht.le
  · have hpos : 0 < u := not_le.mp hneg
    have hbu : binade x - 52 = u := by
      rcases max_choice (binade x - 52) (-1074) with h | h
      · rw [h] at hu
        exact hu
      · rw [h] at hu
        omega
    have h1t : (1 : ℚ) ≤ twoPow u := by
      rw [htz]
      exact one_le_zpow₀ (by norm_num) hpos.le
    have hle : twoPow u ≤ x := by
      rw [htz]
      exact le_trans (zpow_le_zpow_right₀ (by norm_num) (by omega)) hb
    have hq : (((1 : ℤ) : ℤ) : ℚ) ≤ x / twoPow u := by
      rw [le_div_iff₀ ht]
      simpa using hle
    have hfl : (1 : ℤ) ≤ roundHalfEven (x / twoPow u) :=
      le_trans (Int.le_floor.mpr hq) (floor_le_roundHalfEven _)
    have hfl' : (1 : ℚ) ≤ (roundHalfEven (x / twoPow u) : ℚ) := by exact_mod_cast hfl
    calc (1 : ℚ) = 1 * 1 := by norm_num
      _ ≤ (roundHalfEven (x / twoPow u) : ℚ) * twoPow u :=
        mul_le_mul hfl' h1t (by norm_num) (by linarith)

/-- The rounding error below 128: half a unit in the last place, at most `2 ^ -47`. -/
theorem roundToDouble_error (x : ℚ) (hx : |x| < 128) :
    |roundToDouble x - x| ≤ 1 / 2 ^ 47 := by
  by_cases hx0 : x = 0
  · simp [roundToDouble, hx0]
  have hb := twoPow_binade_le x hx0
  rw [twoPow_eq_zpow] at hb
  have hb7 : binade x < 7 := by
    by_contra hge
    have h7 : (2 : ℚ) ^ (7 : ℤ) ≤ (2 : ℚ) ^ binade x :=
      zpow_le_zpow_right₀ (by norm_num) (not_lt.mp hge)
    have : (128 : ℚ) ≤ |x| := by
      calc (128 : ℚ) = (2 : ℚ) ^ (7 : ℤ) := by norm_num
        _ ≤ (2 : ℚ) ^ binade x := h7
        _ ≤ |x| := hb
    linarith
  unfold roundToDouble
  rw [if_neg hx0]
  dsimp only
  generalize hu : max (binade x - 52) (-1074) = u
  have hule : u ≤ -46 := by
    rw [← hu]
    exact max_le (by omega) (by norm_num)
  have ht : 0 < twoPow u := twoPow_pos u
  have htle : twoPow u ≤ 1 / 2 ^ 46 := by
    rw [twoPow_eq_zpow]
    calc (2 : ℚ) ^ u ≤ (2 : ℚ) ^ (-46 : ℤ) := zpow_le_zpow_right₀ (by norm_num) hule
      _ = 1 / 2 ^ 46 := by norm_num
  have herr := roundHalfEven_error (x / twoPow u)
  have hfac : (roundHalfEven (x / twoPow u) : ℚ) * twoPow u - x
      = ((roundHalfEven (x / twoPow u) : ℚ) - x / twoPow u) * twoPow u := by
    field_simp
  rw [hfac, abs_mul, abs_of_pos ht]
  calc |(roundHalfEven (x / twoPow u) : ℚ) - x / twoPow u| * twoPow u
      ≤ 1 / 2 * (1 / 2 ^ 46) := mul_le_mul herr htle ht.le (by norm_num)
    _ = 1 / 2 ^ 47 := by norm_num

/-! ## The code's arithmetic -/

theorem binary64_two_pi : binary64.fl (2 * binary64.pi) = 2 * mathPI := by
  decide!

theorem binary64_two_pi_pos : 0 < binary64.fl (2 * binary64.pi) := by
  decide!

/-- In doubles the normalised rotation lies in `[0, 2 * Math.PI)`. -/
theorem normalizeRotation_binary64_mem (rotation : ℚ) :
    0 ≤ normalizeRotation binary64 rotation ∧
    normalizeRotation binary64 rotation < 2 * mathPI := by
  have h := normalizeRotation_mem binary64 binary64_two_pi_pos roundToDouble_nonneg rotation
  rw [binary64_two_pi] at h
  exact h

/-- In doubles the quotient `elapsed / 4000` does not round below 1 once 4000 ms have
elapsed. -/
theorem binary64_progress (elapsed : ℤ) (h : 4000 ≤ elapsed) :
    1 ≤ binary64.fl ((elapsed : ℚ) / 4000) := by
  apply roundToDouble_one_le
  rw [le_div_iff₀ (by norm_num)]
  have : ((4000 : ℤ) : ℚ) ≤ (elapsed : ℚ) := by exact_mod_cast h
  simpa using this

/-! ## The winner resolver -/

/-- C1: for every option count n ≥ 1 and every rotation θ, the index returned by
`computeWinnerIndexFromRotation` lies in `[0, n)` and is 0 when n = 1; and the last frame
of `animateSpin` returns after announcing the option at an index of `[0, n)` (index 0 when
n = 1). This holds whatever the rounding of the arithmetic `A`: for the frame, `hfl` asks
only that a quotient `elapsed / 4000` of at least 1 is not rounded below 1, as is the case
in doubles (`roundToDouble_one_le`) and in exact arithmetic. -/
theorem C1_winner_index_in_range {K : Type} [LinearOrderedField K] [FloorRing K]
    (A : Arith K) (s : SpinTheWheel K) (θ : K) (a : SpinAnimation K)
    (currentTime highlightStart highlightNow : ℤ) (hn : 1 ≤ s.options.length)
    (ht : 4000 ≤ currentTime - a.startTime) (hfl : ∀ q : K, 1 ≤ q → 1 ≤ A.fl q) :
    (0 ≤ computeWinnerIndexFromRotation A s θ ∧
      computeWinnerIndexFromRotation A s θ < (s.options.length : ℤ) ∧
      (s.options.length = 1 → computeWinnerIndexFromRotation A s θ = 0)) ∧
    ∃ (s' : SpinTheWheel K) (i : ℕ),
      animate A a s currentTime highlightStart highlightNow = some (s', false) ∧
      i < s.options.length ∧ (s.options.length = 1 → i = 0) ∧
      s'.currentWinner = s.options[i]? := by
  have hlen : 0 < s.options.length := hn
  have hne : (s.options.length == 0) = false := by
    simp only [beq_eq_false_iff_ne]
    omega
  have hprog : 1 ≤ A.fl (((currentTime - a.startTime : ℤ) : K) / 4000) := by
    apply hfl
    rw [le_div_iff₀ (by norm_num)]
    have : ((4000 : ℤ) : K) ≤ ((currentTime - a.startTime : ℤ) : K) := by exact_mod_cast ht
    simpa using this
  constructor
  · have h0 := winningIndexOf_nonneg A hlen (normalizeRotation A θ)
    have h1 := winningIndexOf_lt A hlen (normalizeRotation A θ)
    simp only [computeWinnerIndexFromRotation, hne, Bool.false_eq_true, if_false]
    exact ⟨h0, h1, fun h => by omega⟩
  · obtain ⟨s', hs, -, -, -, hw⟩ :=
      animate_complete A a s currentTime highlightStart highlightNow hlen hprog
    have h0 := winningIndexOf_nonneg A hlen (normalizeRotation A (lastFrameRotation A a))
    have h1 := winningIndexOf_lt A hlen (normalizeRotation A (lastFrameRotation A a))
    exact ⟨s', _, hs, by omega, fun h => by omega, hw⟩

/-- Witness of C1 in the code's arithmetic, on a wheel with the single option "A",
rotation 0. -/
theorem C1_winner_index_in_range_witness :
    1 ≤ (wheelOf [⟨"A", "#374151"⟩] : SpinTheWheel ℚ).options.length ∧
    (4000 : ℤ) ≤ 4000 - (⟨0, 0, 0⟩ : SpinAnimation ℚ).startTime ∧
    (∀ q : ℚ, 1 ≤ q → 1 ≤ binary64.fl q) ∧
    computeWinnerIndexFromRotation binary64 (wheelOf [⟨"A", "#374151"⟩] : SpinTheWheel ℚ) 0
      = 0 :=
  ⟨by decide, by decide, roundToDouble_one_le,
    (C1_winner_index_in_range binary64 (wheelOf [⟨"A", "#374151"⟩]) 0 ⟨0, 0, 0⟩ 4000 4000 4000
      (by decide) (by decide) roundToDouble_one_le).1.2.2 rfl⟩

/-- The code at the failing input of C2: on a fresh wheel with 17 options, with
`Math.random()` returning 0 and then 0.8088235294117643, `spin` and the last frame of
`animateSpin` store the rotation 5.081988116101137 and announce the option of slice 16.
The span `drawWheel` gives that slice starts at 10.995574287564278, one unit in the last
place after the pointer angle -π/2 + 2π·2 = 10.995574287564276, so no whole number of
turns puts the pointer in it, neither with `Math.PI` nor with the real number π; the
pointer is in the span of slice 15. -/
theorem C2_announced_slice_misses_pointer :
    ∃ (finalRotation : ℚ) (s' : SpinTheWheel ℚ),
      (spin binary64 (wheelOf (optionsOfCount 17)) 0
        (roundToDouble (8088235294117643 / 10000000000000000))).2 = some finalRotation ∧
      animate binary64
        (animateSpin binary64
          (spin binary64 (wheelOf (optionsOfCount 17)) 0
            (roundToDouble (8088235294117643 / 10000000000000000))).1 finalRotation 0)
        (spin binary64 (wheelOf (optionsOfCount 17)) 0
          (roundToDouble (8088235294117643 / 10000000000000000))).1
        4000 4000 4000 = some (s', false) ∧
      s'.currentWinner = (optionsOfCount 17)[16]? ∧
      (∀ k : ℤ, ¬ (sliceStartAngle binary64 17 s'.currentRotation 16
            ≤ -mathPI / 2 + 2 * mathPI * (k : ℚ) ∧
          -mathPI / 2 + 2 * mathPI * (k : ℚ)
            < sliceEndAngle binary64 17 s'.currentRotation 16)) ∧
      (∀ k : ℤ, ¬ (((sliceStartAngle binary64 17 s'.currentRotation 16 : ℚ) : ℝ)
            ≤ -Real.pi / 2 + 2 * Real.pi * (k : ℝ) ∧
          -Real.pi / 2 + 2 * Real.pi * (k : ℝ)
            < ((sliceEndAngle binary64 17 s'.currentRotation 16 : ℚ) : ℝ))) ∧
      (sliceStartAngle binary64 17 s'.currentRotation 15
          ≤ -mathPI / 2 + 2 * mathPI * 2 ∧
        -mathPI / 2 + 2 * mathPI * 2 < sliceEndAngle binary64 17 s'.currentRotation 15) := by
  have hspin : (spin binary64 (wheelOf (optionsOfCount 17)) 0
      (roundToDouble (8088235294117643 / 10000000000000000))).2
      = some (2568312419164737 / 70368744177664) := by
    decide!
  have hanim : (animate binary64
      (animateSpin binary64
        (spin binary64 (wheelOf (optionsOfCount 17)) 0
          (roundToDouble (8088235294117643 / 10000000000000000))).1
        (2568312419164737 / 70368744177664) 0)
      (spin binary64 (wheelOf (optionsOfCount 17)) 0
        (roundToDouble (8088235294117643 / 10000000000000000))).1
      4000 4000 4000).map (fun p => (p.1.currentRotation, p.1.currentWinner, p.2))
      = some (715226243311699 / 140737488355328, (optionsOfCount 17)[16]?, false) := by
    decide!
  obtain ⟨s', hs, hrot, hwin⟩ := animate_of_eval _ _ _ _ _ _ _ _ hanim
  have hstart : sliceStartAngle binary64 17 (715226243311699 / 140737488355328) 16
      = 3094979016512443 / 281474976710656 := by
    decide!
  have hend : sliceEndAngle binary64 17 (715226243311699 / 140737488355328) 16
      = 799752981157627 / 70368744177664 := by
    decide!
  have h15 : sliceStartAngle binary64 17 (715226243311699 / 140737488355328) 15
        ≤ -mathPI / 2 + 2 * mathPI * 2 ∧
      -mathPI / 2 + 2 * mathPI * 2
        < sliceEndAngle binary64 17 (715226243311699 / 140737488355328) 15 := by
    decide!
  refine ⟨_, s', hspin, hs, hwin, ?_, ?_, ?_⟩
  · intro k hk
    rw [hrot, hstart, hend] at hk
    simp only [mathPI] at hk
    obtain ⟨h1, h2⟩ := hk
    rcases le_or_lt k 2 with hk2 | hk3
    · have : (k : ℚ) ≤ 2 := by exact_mod_cast hk2
      linarith
    · have : (3 : ℚ) ≤ (k : ℚ) := by exact_mod_cast hk3
      linarith
  · intro k hk
    rw [hrot, hstart, hend] at hk
    obtain ⟨h1, h2⟩ := hk
    push_cast at h1 h2
    have hlo := Real.pi_gt_d20
    have hhi := Real.pi_lt_d20
    rcases le_or_lt k 2 with hk2 | hk3
    · have : (k : ℝ) ≤ 2 := by exact_mod_cast hk2
      nlinarith
    · have : (3 : ℝ) ≤ (k : ℝ) := by exact_mod_cast hk3
      nlinarith
  · rw [hrot]
    exact h15

/-- In exact real arithmetic the winning slice is the one drawn under the pointer: for
n ≥ 1 options and every real rotation θ, with w the index returned by
`computeWinnerIndexFromRotation`, some whole number k of turns puts the pointer angle
-π/2 + 2πk in the span `[w * (2π/n) + θ, (w+1) * (2π/n) + θ)`. -/
theorem exact_winner_under_pointer (s : SpinTheWheel ℝ) (θ : ℝ)
    (hn : 1 ≤ s.options.length) :
    ∃ k : ℤ,
      (computeWinnerIndexFromRotation (exactArith Real.pi) s θ : ℝ)
          * (2 * Real.pi / s.options.length) + θ
        ≤ -Real.pi / 2 + 2 * Real.pi * k ∧
      -Real.pi / 2 + 2 * Real.pi * k
        < ((computeWinnerIndexFromRotation (exactArith Real.pi) s θ : ℝ) + 1)
            * (2 * Real.pi / s.options.length) + θ := by
  have hlen : 0 < s.options.length := hn
  have hne : (s.options.length == 0) = false := by
    simp only [beq_eq_false_iff_ne]
    omega
  obtain ⟨k, hk1, hk2⟩ :=
    winningIndexOf_exact_pointer Real.pi_pos hlen (normalizeRotation (exactArith Real.pi) θ)
  obtain ⟨m, hm⟩ := normalizeRotation_exact_exists_int Real.pi θ
  refine ⟨k - m, ?_⟩
  simp only [computeWinnerIndexFromRotation, hne, Bool.false_eq_true, if_false]
  simp only [sliceStartAngle, sliceEndAngle, exactArith] at hk1 hk2
  simp only [exactArith] at hm
  rw [hm] at hk1 hk2
  simp only [exactArith]
  rw [hm]
  push_cast
  constructor <;> linarith

/-- The code at the input of C3: with the options A, B, C, D and rotation 0 the resolver
returns 3, in doubles and in exact real arithmetic. -/
theorem resolver_four_options_at_zero :
    computeWinnerIndexFromRotation binary64
      (wheelOf [⟨"A", "#374151"⟩, ⟨"B", "#475569"⟩, ⟨"C", "#334155"⟩, ⟨"D", "#6366F1"⟩] :
        SpinTheWheel ℚ) 0 = 3 ∧
    computeWinnerIndexFromRotation (exactArith Real.pi)
      (wheelOf [⟨"A", "#374151"⟩, ⟨"B", "#475569"⟩, ⟨"C", "#334155"⟩, ⟨"D", "#6366F1"⟩] :
        SpinTheWheel ℝ) 0 = 3 := by
  constructor
  · decide!
  · have h := winningIndexOf_exact_four_zero Real.pi_pos
    simpa [computeWinnerIndexFromRotation, wheelOf] using h

/-- C3, as stated, fails: with the four options A, B, C, D and settled angle 0 the
resolver does not return index 1, neither in doubles nor in exact real arithmetic. -/
theorem C3_index_one_refuted :
    computeWinnerIndexFromRotation binary64
      (wheelOf [⟨"A", "#374151"⟩, ⟨"B", "#475569"⟩, ⟨"C", "#334155"⟩, ⟨"D", "#6366F1"⟩] :
        SpinTheWheel ℚ) 0 ≠ 1 ∧
    computeWinnerIndexFromRotation (exactArith Real.pi)
      (wheelOf [⟨"A", "#374151"⟩, ⟨"B", "#475569"⟩, ⟨"C", "#334155"⟩, ⟨"D", "#6366F1"⟩] :
        SpinTheWheel ℝ) 0 ≠ 1 := by
  rw [resolver_four_options_at_zero.1, resolver_four_options_at_zero.2]
  exact ⟨by decide, by decide⟩

/-- C3, amended: with the four options A, B, C, D and settled angle 0 the winner resolver
returns winning index 3 (`floor((-π/2 - 0) / (π/2)) = -1`, normalised to 3), and the last
frame of a spin that settles at angle 0 announces the option D at that index; both in
the code's doubles and in exact real arithmetic. -/
theorem C3_four_options_angle_zero :
    (computeWinnerIndexFromRotation binary64
      (wheelOf [⟨"A", "#374151"⟩, ⟨"B", "#475569"⟩, ⟨"C", "#334155"⟩, ⟨"D", "#6366F1"⟩] :
        SpinTheWheel ℚ) 0 = 3 ∧
    ∃ s' : SpinTheWheel ℚ,
      animate binary64 ⟨0, 0, 0⟩
        (wheelOf [⟨"A", "#374151"⟩, ⟨"B", "#475569"⟩, ⟨"C", "#334155"⟩, ⟨"D", "#6366F1"⟩])
        4000 4000 4000 = some (s', false) ∧
      s'.currentRotation = 0 ∧ s'.currentWinner = some ⟨"D", "#6366F1"⟩) ∧
    (computeWinnerIndexFromRotation (exactArith Real.pi)
      (wheelOf [⟨"A", "#374151"⟩, ⟨"B", "#475569"⟩, ⟨"C", "#334155"⟩, ⟨"D", "#6366F1"⟩] :
        SpinTheWheel ℝ) 0 = 3 ∧
    ∃ s' : SpinTheWheel ℝ,
      animate (exactArith Real.pi) ⟨0, 0, 0⟩
        (wheelOf [⟨"A", "#374151"⟩, ⟨"B", "#475569"⟩, ⟨"C", "#334155"⟩, ⟨"D", "#6366F1"⟩])
        4000 4000 4000 = some (s', false) ∧
      s'.currentRotation = 0 ∧ s'.currentWinner = some ⟨"D", "#6366F1"⟩) := by
  refine ⟨⟨resolver_four_options_at_zero.1, ?_⟩, ⟨resolver_four_options_at_zero.2, ?_⟩⟩
  · apply animate_of_eval
    decide!
  · obtain ⟨s', hs, hrot, -, -, hw⟩ := animate_complete (exactArith Real.pi) ⟨0, 0, 0⟩
      (wheelOf [⟨"A", "#374151"⟩, ⟨"B", "#475569"⟩, ⟨"C", "#334155"⟩, ⟨"D", "#6366F1"⟩] :
        SpinTheWheel ℝ) 4000 4000 4000 (by decide) (by
          simp only [exactArith]
          norm_num)
    have hlast : lastFrameRotation (exactArith Real.pi) (⟨0, 0, 0⟩ : SpinAnimation ℝ) = 0 := by
      simp [lastFrameRotation, exactArith]
    have hx : normalizeRotation (exactArith Real.pi) (0 : ℝ) = 0 :=
      normalizeRotation_exact_of_mem Real.pi_pos ⟨le_refl 0, by linarith [Real.pi_pos]⟩
    have h4 := winningIndexOf_exact_four_zero Real.pi_pos
    rw [hlast] at hrot hw
    refine ⟨s', hs, ?_, ?_⟩
    · rw [hrot, hx]
    · simp only [wheelOf, List.length_cons, List.length_nil] at hw
      norm_num at hw
      rw [hw, h4]
      rfl

/-- C4, as stated, fails in the code: with 3 options the resolver returns 1 at the double
-3.6651914291880923 and 0 one turn later, at that double plus `2 * Math.PI` (a sum that
is itself a double). -/
theorem C4_whole_turn_changes_index :
    roundToDouble (roundToDouble (-36651914291880923 / 10000000000000000) + 2 * binary64.pi)
      = roundToDouble (-36651914291880923 / 10000000000000000) + 2 * binary64.pi ∧
    computeWinnerIndexFromRotation binary64 (wheelOf (optionsOfCount 3))
      (roundToDouble (-36651914291880923 / 10000000000000000)) = 1 ∧
    computeWinnerIndexFromRotation binary64 (wheelOf (optionsOfCount 3))
      (roundToDouble (-36651914291880923 / 10000000000000000) + 2 * binary64.pi) = 0 := by
  decide!

/-- In doubles a whole turn `2 * Math.PI` added exactly to a non-negative rotation leaves
the normal form unchanged. -/
theorem normalizeRotation_binary64_add_turn (rotation : ℚ) (h : 0 ≤ rotation) :
    normalizeRotation binary64 (rotation + 2 * binary64.pi)
      = normalizeRotation binary64 rotation := by
  have hT : (0 : ℚ) < 2 * mathPI := by
    rw [← binary64_two_pi]
    exact binary64_two_pi_pos
  have hpi : binary64.pi = mathPI := rfl
  have h2 : binary64.fl (2 * mathPI) = 2 * mathPI := binary64_two_pi
  simp only [normalizeRotation, hpi, h2, jsRem_add_self h hT]

/-- C4, amended: the resolver is a closed-form function of the rotation and the option
count, so identical inputs always give the same index. In the code's doubles it returns
the same index for every rotation θ ≥ 0 and for the exact sum θ + 2 * Math.PI; in exact
real arithmetic it returns the same index for every real θ and for θ + 2π. -/
theorem C4_periodic_for_nonnegative_angles (s : SpinTheWheel ℚ) (θ : ℚ)
    (t : SpinTheWheel ℝ) (φ : ℝ) :
    (0 ≤ θ →
      computeWinnerIndexFromRotation binary64 s (θ + 2 * binary64.pi)
        = computeWinnerIndexFromRotation binary64 s θ) ∧
    (∀ s₂ : SpinTheWheel ℚ, s₂.options.length = s.options.length →
      computeWinnerIndexFromRotation binary64 s₂ θ
        = computeWinnerIndexFromRotation binary64 s θ) ∧
    computeWinnerIndexFromRotation (exactArith Real.pi) t (φ + 2 * Real.pi)
      = computeWinnerIndexFromRotation (exactArith Real.pi) t φ := by
  refine ⟨?_, ?_, ?_⟩
  · intro h
    simp only [computeWinnerIndexFromRotation, normalizeRotation_binary64_add_turn θ h]
  · intro s₂ h
    simp only [computeWinnerIndexFromRotation, h]
  · simp only [computeWinnerIndexFromRotation, normalizeRotation_exact_add_turn Real.pi_pos]

/-- Witness of C4: rotation 1 on two three-option wheels. -/
theorem C4_periodic_for_nonnegative_angles_witness :
    (0 : ℚ) ≤ 1 ∧
    computeWinnerIndexFromRotation binary64 (wheelOf (optionsOfCount 3)) (1 + 2 * binary64.pi)
      = computeWinnerIndexFromRotation binary64 (wheelOf (optionsOfCount 3)) 1 ∧
    (wheelOf [⟨"X", "#374151"⟩, ⟨"Y", "#475569"⟩, ⟨"Z", "#334155"⟩] :
        SpinTheWheel ℚ).options.length
      = (wheelOf (optionsOfCount 3) : SpinTheWheel ℚ).options.length ∧
    computeWinnerIndexFromRotation binary64
        (wheelOf [⟨"X", "#374151"⟩, ⟨"Y", "#475569"⟩, ⟨"Z", "#334155"⟩]) 1
      = computeWinnerIndexFromRotation binary64 (wheelOf (optionsOfCount 3)) 1 :=
  ⟨zero_le_one,
    (C4_periodic_for_nonnegative_angles (wheelOf (optionsOfCount 3)) 1 (wheelOf []) 0).1
      zero_le_one,
    rfl,
    (C4_periodic_for_nonnegative_angles (wheelOf (optionsOfCount 3)) 1 (wheelOf []) 0).2.1
      _ rfl⟩

/-- C5, as stated, fails in the code: with 61 options the resolver applied to the double
`-Math.PI / 2` returns 60 (the quotient is -61.00000000000001, its floor -62). -/
theorem C5_sixty_one_options :
    binary64.fl (-binary64.pi / 2) = -binary64.pi / 2 ∧
    (wheelOf (optionsOfCount 61) : SpinTheWheel ℚ).options.length = 61 ∧
    computeWinnerIndexFromRotation binary64 (wheelOf (optionsOfCount 61))
      (-binary64.pi / 2) = 60 := by
  decide!

/-- The resolver at `-Math.PI / 2` in doubles, for each option count from 1 to 60. -/
theorem winningIndexOf_binary64_neg_half_pi :
    ∀ n : Fin 61, 1 ≤ n.val →
      winningIndexOf binary64 n.val (normalizeRotation binary64 (-binary64.pi / 2)) = 0 := by
  decide!

/-- C5, amended: for every option count n from 1 to 60, which covers every wheel within
the cap of 50 options, the resolver applied to the double `-Math.PI / 2` returns index
0; in exact real arithmetic it returns 0 at -π/2 for every n ≥ 1. -/
theorem C5_pointer_aligned_rotation (s : SpinTheWheel ℚ) (t : SpinTheWheel ℝ) :
    (1 ≤ s.options.length → s.options.length ≤ 60 →
      computeWinnerIndexFromRotation binary64 s (-binary64.pi / 2) = 0) ∧
    (1 ≤ t.options.length →
      computeWinnerIndexFromRotation (exactArith Real.pi) t (-Real.pi / 2) = 0) := by
  constructor
  · intro h1 h60
    have hne : (s.options.length == 0) = false := by
      simp only [beq_eq_false_iff_ne]
      omega
    simp only [computeWinnerIndexFromRotation, hne, Bool.false_eq_true, if_false]
    exact winningIndexOf_binary64_neg_half_pi ⟨s.options.length, by omega⟩ h1
  · intro h1
    have hne : (t.options.length == 0) = false := by
      simp only [beq_eq_false_iff_ne]
      omega
    simp only [computeWinnerIndexFromRotation, hne, Bool.false_eq_true, if_false]
    exact winningIndexOf_exact_neg_half_pi Real.pi_pos h1

/-- Witness of C5 on the wheel with fifty options and on a real three-option wheel. -/
theorem C5_pointer_aligned_rotation_witness :
    1 ≤ (wheelOf fiftyOptions : SpinTheWheel ℚ).options.length ∧
    (wheelOf fiftyOptions : SpinTheWheel ℚ).options.length ≤ 60 ∧
    computeWinnerIndexFromRotation binary64 (wheelOf fiftyOptions) (-binary64.pi / 2) = 0 ∧
    computeWinnerIndexFromRotation (exactArith Real.pi)
      (wheelOf [⟨"A", "#374151"⟩, ⟨"B", "#475569"⟩, ⟨"C", "#334155"⟩] : SpinTheWheel ℝ)
      (-Real.pi / 2) = 0 :=
  ⟨by simp [wheelOf, fiftyOptions], by simp [wheelOf, fiftyOptions],
    (C5_pointer_aligned_rotation (wheelOf fiftyOptions)
      (wheelOf [⟨"A", "#374151"⟩, ⟨"B", "#475569"⟩, ⟨"C", "#334155"⟩])).1
      (by simp [wheelOf, fiftyOptions]) (by simp [wheelOf, fiftyOptions]),
    (C5_pointer_aligned_rotation (wheelOf fiftyOptions)
      (wheelOf [⟨"A", "#374151"⟩, ⟨"B", "#475569"⟩, ⟨"C", "#334155"⟩])).2 (by decide)⟩

/-! ## The rotation engine -/

section FieldLemmas

variable {K : Type} [LinearOrderedField K] [FloorRing K]

theorem updateOptionsDisplay_currentRotation (s : SpinTheWheel K) :
    (updateOptionsDisplay s).currentRotation = s.currentRotation := by
  unfold updateOptionsDisplay
  split
  · split <;> rfl
  · rfl

theorem updateOptionsDisplay_options (s : SpinTheWheel K) :
    (updateOptionsDisplay s).options = s.options := by
  unfold updateOptionsDisplay
  split
  · split <;> rfl
  · rfl

theorem updateOptionsDisplay_toasts (s : SpinTheWheel K) :
    (updateOptionsDisplay s).toasts = s.toasts := by
  unfold updateOptionsDisplay
  split
  · split <;> rfl
  · rfl

theorem toggleSelectionMode_currentRotation (s : SpinTheWheel K) :
    (toggleSelectionMode s).currentRotation = s.currentRotation := by
  unfold toggleSelectionMode
  split
  · rfl
  · dsimp only
    rw [updateOptionsDisplay_currentRotation]
    split <;> rfl

end FieldLemmas

/-- C6, as stated, fails in the code: with the current rotation 0.62 and both draws equal
to 0, the target `spin` plans lies less than `5 * 2 * Math.PI` above the current rotation
(the sum `0.62 + 10 * Math.PI` is rounded down). -/
theorem C6_target_below_five_turns :
    ∃ finalRotation : ℚ,
      (spin binary64
        { (wheelOf [⟨"A", "#374151"⟩, ⟨"B", "#475569"⟩] : SpinTheWheel ℚ) with
          currentRotation := roundToDouble (62 / 100) } 0 0).2 = some finalRotation ∧
      finalRotation - roundToDouble (62 / 100) < 5 * (2 * binary64.pi) :=
  ⟨2254327918899039 / 70368744177664, by decide!, by decide!⟩

/-- The target of `spin` in doubles: each of its eight roundings moves a value below 128
by at most `2 ^ -47`, so the target is within `2 ^ -42` of the exact bounds. -/
theorem spin_target_bounds (c r1 r2 : ℚ) (hc : 0 ≤ c ∧ c < 2 * mathPI)
    (h1 : 0 ≤ r1 ∧ r1 < 1) (h2 : 0 ≤ r2 ∧ r2 < 1) :
    5 * (2 * mathPI) - 1 / 2 ^ 42
      ≤ roundToDouble (roundToDouble (c + roundToDouble (roundToDouble
          (roundToDouble (roundToDouble (r1 * roundToDouble (10 - 5)) + 5) * 2) * mathPI))
          + roundToDouble (roundToDouble (r2 * 2) * mathPI)) - c ∧
    roundToDouble (roundToDouble (c + roundToDouble (roundToDouble
          (roundToDouble (roundToDouble (r1 * roundToDouble (10 - 5)) + 5) * 2) * mathPI))
          + roundToDouble (roundToDouble (r2 * 2) * mathPI)) - c
      ≤ 10 * (2 * mathPI) + 2 * mathPI + 1 / 2 ^ 42 := by
  have h5 : roundToDouble (10 - 5) = 5 := by decide!
  have hP : mathPI = 884279719003555 / 281474976710656 := rfl
  rw [h5]
  rw [hP] at hc ⊢
  obtain ⟨hc0, hc1⟩ := hc
  obtain ⟨h10, h11⟩ := h1
  obtain ⟨h20, h21⟩ := h2
  -- the first product
  have e1 := roundToDouble_error (r1 * 5) (by rw [abs_lt]; constructor <;> linarith)
  have n1 := roundToDouble_nonneg (r1 * 5) (by linarith)
  generalize roundToDouble (r1 * 5) = t1 at e1 n1 ⊢
  rw [abs_le] at e1
  obtain ⟨-, e1b⟩ := e1
  norm_num at e1b
  -- the number of turns
  have e2 := roundToDouble_error (t1 + 5) (by rw [abs_lt]; constructor <;> linarith)
  generalize roundToDouble (t1 + 5) = sp at e2 ⊢
  rw [abs_le] at e2
  obtain ⟨e2a, e2b⟩ := e2
  norm_num at e2a e2b
  have e3 := roundToDouble_error (sp * 2) (by rw [abs_lt]; constructor <;> linarith)
  generalize roundToDouble (sp * 2) = s2 at e3 ⊢
  rw [abs_le] at e3
  obtain ⟨e3a, e3b⟩ := e3
  norm_num at e3a e3b
  have e4 := roundToDouble_error (s2 * (884279719003555 / 281474976710656))
    (by rw [abs_lt]; constructor <;> linarith)
  generalize roundToDouble (s2 * (884279719003555 / 281474976710656)) = x at e4 ⊢
  rw [abs_le] at e4
  obtain ⟨e4a, e4b⟩ := e4
  norm_num at e4a e4b
  -- the offset
  have e5 := roundToDouble_error (r2 * 2) (by rw [abs_lt]; constructor <;> linarith)
  have n5 := roundToDouble_nonneg (r2 * 2) (by linarith)
  generalize roundToDouble (r2 * 2) = o1 at e5 n5 ⊢
  rw [abs_le] at e5
  obtain ⟨-, e5b⟩ := e5
  norm_num at e5b
  have e6 := roundToDouble_error (o1 * (884279719003555 / 281474976710656))
    (by rw [abs_lt]; constructor <;> linarith)
  have n6 := roundToDouble_nonneg (o1 * (884279719003555 / 281474976710656))
    (by positivity)
  generalize roundToDouble (o1 * (884279719003555 / 281474976710656)) = off at e6 n6 ⊢
  rw [abs_le] at e6
  obtain ⟨-, e6b⟩ := e6
  norm_num at e6b
  -- the two sums
  have e7 := roundToDouble_error (c + x) (by rw [abs_lt]; constructor <;> linarith)
  generalize roundToDouble (c + x) = s1 at e7 ⊢
  rw [abs_le] at e7
  obtain ⟨e7a, e7b⟩ := e7
  norm_num at e7a e7b
  have e8 := roundToDouble_error (s1 + off) (by rw [abs_lt]; constructor <;> linarith)
  generalize roundToDouble (s1 + off) = f at e8 ⊢
  rw [abs_le] at e8
  obtain ⟨e8a, e8b⟩ := e8
  norm_num at e8a e8b
  constructor <;> norm_num <;> linarith

/-- C6, amended: minimum-turns guarantee up to rounding. On an idle wheel with at least 2
options whose current rotation c is normalised (0 ≤ c < 2 * Math.PI), for every pair of
random draws r1, r2 in [0, 1), `spin` starts a spin whose target in doubles satisfies
5 * 2 * Math.PI - 2^-42 ≤ finalRotation - c ≤ 10 * 2 * Math.PI + 2 * Math.PI + 2^-42. In
exact real arithmetic, for every current rotation,
5 * 2π ≤ finalRotation - c < 10 * 2π + 2π, and the animation started from the target has
that difference as its total rotation. -/
theorem C6_minimum_turns_up_to_rounding (s : SpinTheWheel ℚ) (r1 r2 : ℚ)
    (t : SpinTheWheel ℝ) (ρ1 ρ2 : ℝ) (startTime : ℤ) :
    (s.isSpinning = false → 2 ≤ s.options.length →
      (0 ≤ s.currentRotation ∧ s.currentRotation < 2 * binary64.pi) →
      (0 ≤ r1 ∧ r1 < 1) → (0 ≤ r2 ∧ r2 < 1) →
      ∃ finalRotation : ℚ,
        (spin binary64 s r1 r2).2 = some finalRotation ∧
        (spin binary64 s r1 r2).1.isSpinning = true ∧
        (spin binary64 s r1 r2).1.currentRotation = s.currentRotation ∧
        5 * (2 * binary64.pi) - 1 / 2 ^ 42 ≤ finalRotation - s.currentRotation ∧
        finalRotation - s.currentRotation
          ≤ 10 * (2 * binary64.pi) + 2 * binary64.pi + 1 / 2 ^ 42) ∧
    (t.isSpinning = false → 2 ≤ t.options.length →
      (0 ≤ ρ1 ∧ ρ1 < 1) → (0 ≤ ρ2 ∧ ρ2 < 1) →
      ∃ finalRotation : ℝ,
        (spin (exactArith Real.pi) t ρ1 ρ2).2 = some finalRotation ∧
        (spin (exactArith Real.pi) t ρ1 ρ2).1.isSpinning = true ∧
        (spin (exactArith Real.pi) t ρ1 ρ2).1.currentRotation = t.currentRotation ∧
        5 * (2 * Real.pi) ≤ finalRotation - t.currentRotation ∧
        finalRotation - t.currentRotation < 10 * (2 * Real.pi) + 2 * Real.pi ∧
        (animateSpin (exactArith Real.pi) (spin (exactArith Real.pi) t ρ1 ρ2).1
          finalRotation startTime).totalRotation = finalRotation - t.currentRotation) := by
  constructor
  · intro hidle hn hc h1 h2
    have hne : (s.options.length == 0) = false := by
      simp only [beq_eq_false_iff_ne]
      omega
    have hlt : ¬ s.options.length < 2 := by omega
    have hrot : (if s.selectionMode = true then toggleSelectionMode s else s).currentRotation
        = s.currentRotation := by
      split
      · exact toggleSelectionMode_currentRotation s
      · rfl
    simp only [spin, hidle, hne, hlt, Bool.or_self, Bool.false_eq_true, if_false, hrot]
    exact ⟨_, rfl, trivial, trivial, spin_target_bounds s.currentRotation r1 r2 hc h1 h2⟩
  · intro hidle hn h1 h2
    have hpi := Real.pi_pos
    have hne : (t.options.length == 0) = false := by
      simp only [beq_eq_false_iff_ne]
      omega
    have hlt : ¬ t.options.length < 2 := by omega
    have hrot : (if t.selectionMode = true then toggleSelectionMode t else t).currentRotation
        = t.currentRotation := by
      split
      · exact toggleSelectionMode_currentRotation t
      · rfl
    simp only [spin, hidle, hne, hlt, Bool.or_self, Bool.false_eq_true, if_false, animateSpin,
      hrot, exactArith]
    refine ⟨_, rfl, trivial, trivial, ?_, ?_, ?_⟩
    · nlinarith [h1.1, h2.1]
    · nlinarith [h1.2, h2.2]
    · trivial

/-- Witness of C6 on the fresh two-option wheel with both draws equal to 0, in doubles
and in exact real arithmetic. -/
theorem C6_minimum_turns_up_to_rounding_witness :
    (wheelOf [⟨"A", "#374151"⟩, ⟨"B", "#475569"⟩] : SpinTheWheel ℚ).isSpinning = false ∧
    2 ≤ (wheelOf [⟨"A", "#374151"⟩, ⟨"B", "#475569"⟩] : SpinTheWheel ℚ).options.length ∧
    ((0 : ℚ) ≤ 0 ∧ (0 : ℚ) < 2 * binary64.pi) ∧ ((0 : ℚ) ≤ 0 ∧ (0 : ℚ) < 1) ∧
    (∃ finalRotation : ℚ,
      (spin binary64 (wheelOf [⟨"A", "#374151"⟩, ⟨"B", "#475569"⟩]) 0 0).2
        = some finalRotation ∧
      5 * (2 * binary64.pi) - 1 / 2 ^ 42 ≤ finalRotation - 0) ∧
    (∃ finalRotation : ℝ,
      (spin (exactArith Real.pi) (wheelOf [⟨"A", "#374151"⟩, ⟨"B", "#475569"⟩]) 0 0).2
        = some finalRotation ∧
      5 * (2 * Real.pi) ≤ finalRotation - 0) :=
  ⟨rfl, by decide, ⟨le_refl 0, by decide!⟩, ⟨le_refl 0, one_pos⟩,
    ((C6_minimum_turns_up_to_rounding (wheelOf [⟨"A", "#374151"⟩, ⟨"B", "#475569"⟩]) 0 0
      (wheelOf [⟨"A", "#374151"⟩, ⟨"B", "#475569"⟩]) 0 0 0).1 rfl (by decide)
      ⟨le_refl 0, by decide!⟩ ⟨le_refl 0, one_pos⟩ ⟨le_refl 0, one_pos⟩).imp
      (fun _ h => ⟨h.1, h.2.2.2.1⟩),
    ((C6_minimum_turns_up_to_rounding (wheelOf [⟨"A", "#374151"⟩, ⟨"B", "#475569"⟩]) 0 0
      (wheelOf [⟨"A", "#374151"⟩, ⟨"B", "#475569"⟩]) 0 0 0).2 rfl (by decide)
      ⟨le_refl 0, one_pos⟩ ⟨le_refl 0, one_pos⟩).imp
      (fun _ h => ⟨h.1, h.2.2.2.1⟩)⟩

/-- C7, as stated, fails in the code: the stored rotation need not differ from the target
by a whole number of turns. After a first spin has stored 0.06101969888234393, a second
spin with the draws 0.2909030182760364 and 0.06682652784039367 plans the target
41.0358175438678 and its last frame stores 3.33670570079029, which is `2 ^ -47` away from
the target minus 6 turns of `2 * Math.PI`; it is no integer multiple of `2 * Math.PI`
away from the target, and none of 2π either. -/
theorem C7_stored_rotation_off_whole_turns :
    ∃ (finalRotation : ℚ) (s' : SpinTheWheel ℚ),
      (spin binary64
        { (wheelOf [⟨"A", "#374151"⟩, ⟨"B", "#475569"⟩] : SpinTheWheel ℚ) with
          currentRotation := roundToDouble (6101969888234393 / 100000000000000000) }
        (roundToDouble (2909030182760364 / 10000000000000000))
        (roundToDouble (6682652784039367 / 100000000000000000))).2 = some finalRotation ∧
      animate binary64
        (animateSpin binary64
          (spin binary64
            { (wheelOf [⟨"A", "#374151"⟩, ⟨"B", "#475569"⟩] : SpinTheWheel ℚ) with
              currentRotation := roundToDouble (6101969888234393 / 100000000000000000) }
            (roundToDouble (2909030182760364 / 10000000000000000))
            (roundToDouble (6682652784039367 / 100000000000000000))).1 finalRotation 0)
        (spin binary64
          { (wheelOf [⟨"A", "#374151"⟩, ⟨"B", "#475569"⟩] : SpinTheWheel ℚ) with
            currentRotation := roundToDouble (6101969888234393 / 100000000000000000) }
          (roundToDouble (2909030182760364 / 10000000000000000))
          (roundToDouble (6682652784039367 / 100000000000000000))).1
        4000 4000 4000 = some (s', false) ∧
      s'.currentRotation - finalRotation = -(12 * binary64.pi) + 1 / 2 ^ 47 ∧
      (∀ k : ℤ, s'.currentRotation - finalRotation ≠ (k : ℚ) * (2 * binary64.pi)) ∧
      (∀ k : ℤ, ((s'.currentRotation - finalRotation : ℚ) : ℝ) ≠ (k : ℝ) * (2 * Real.pi)) := by
  have hspin : (spin binary64
      { (wheelOf [⟨"A", "#374151"⟩, ⟨"B", "#475569"⟩] : SpinTheWheel ℚ) with
        currentRotation := roundToDouble (6101969888234393 / 100000000000000000) }
      (roundToDouble (2909030182760364 / 10000000000000000))
      (roundToDouble (6682652784039367 / 100000000000000000))).2
      = some (5775277893731459 / 140737488355328) := by
    decide!
  have hanim : (animate binary64
      (animateSpin binary64
        (spin binary64
          { (wheelOf [⟨"A", "#374151"⟩, ⟨"B", "#475569"⟩] : SpinTheWheel ℚ) with
            currentRotation := roundToDouble (6101969888234393 / 100000000000000000) }
          (roundToDouble (2909030182760364 / 10000000000000000))
          (roundToDouble (6682652784039367 / 100000000000000000))).1
        (5775277893731459 / 140737488355328) 0)
      (spin binary64
        { (wheelOf [⟨"A", "#374151"⟩, ⟨"B", "#475569"⟩] : SpinTheWheel ℚ) with
          currentRotation := roundToDouble (6101969888234393 / 100000000000000000) }
        (roundToDouble (2909030182760364 / 10000000000000000))
        (roundToDouble (6682652784039367 / 100000000000000000))).1
      4000 4000 4000).map (fun p => (p.1.currentRotation, p.1.currentWinner, p.2))
      = some (234799789855065 / 70368744177664, some ⟨"A", "#374151"⟩, false) := by
    decide!
  obtain ⟨s', hs, hrot, -⟩ := animate_of_eval _ _ _ _ _ _ _ _ hanim
  have hdiff : (234799789855065 / 70368744177664 : ℚ) - 5775277893731459 / 140737488355328
      = -(12 * binary64.pi) + 1 / 2 ^ 47 := by
    decide!
  have hP : binary64.pi = 884279719003555 / 281474976710656 := rfl
  refine ⟨_, s', hspin, hs, ?_, ?_, ?_⟩
  · rw [hrot, hdiff]
  · intro k hk
    rw [hrot, hdiff, hP] at hk
    rcases lt_trichotomy k (-6) with hlt | heq | hgt
    · have : (k : ℚ) ≤ -7 := by exact_mod_cast Int.le_sub_one_of_lt hlt
      norm_num at hk
      linarith
    · rw [heq] at hk
      norm_num at hk
    · have : (-5 : ℚ) ≤ (k : ℚ) := by exact_mod_cast hgt
      norm_num at hk
      linarith
  · intro k hk
    rw [hrot, hdiff, hP] at hk
    push_cast at hk
    have hlo := Real.pi_gt_d20
    have hhi := Real.pi_lt_d20
    rcases lt_trichotomy k (-6) with hlt | heq | hgt
    · have : (k : ℝ) ≤ -7 := by exact_mod_cast Int.le_sub_one_of_lt hlt
      nlinarith
    · rw [heq] at hk
      push_cast at hk
      norm_num at hk
      linarith
    · have : (-5 : ℝ) ≤ (k : ℝ) := by exact_mod_cast hgt
      nlinarith

/-- C7, amended: normalization invariant. For every start rotation (that of the wheel on
which `animateSpin` is called) and every target rotation, both of magnitude at most
`2 ^ 1000` so that no double operation overflows, the frame of the animation that runs
once the 4000 ms have elapsed (progress 1) completes on a non-empty wheel and leaves a
stored `currentRotation` r with 0 ≤ r < 2 * Math.PI, hence r < 2π, in the code's doubles.
In exact real arithmetic, for every start and target rotation, the stored rotation
satisfies 0 ≤ r < 2π and differs from the target by an integer multiple of 2π. -/
theorem C7_rotation_normalized (s₀ s : SpinTheWheel ℚ) (finalRotation : ℚ)
    (t₀ t : SpinTheWheel ℝ) (φ : ℝ)
    (startTime currentTime highlightStart highlightNow : ℤ) :
    (1 ≤ s.options.length → 4000 ≤ currentTime - startTime →
      |s₀.currentRotation| ≤ 2 ^ 1000 → |finalRotation| ≤ 2 ^ 1000 →
      ∃ s' : SpinTheWheel ℚ,
        animate binary64 (animateSpin binary64 s₀ finalRotation startTime) s currentTime
          highlightStart highlightNow = some (s', false) ∧
        0 ≤ s'.currentRotation ∧ s'.currentRotation < 2 * binary64.pi ∧
        ((s'.currentRotation : ℚ) : ℝ) < 2 * Real.pi) ∧
    (1 ≤ t.options.length → 4000 ≤ currentTime - startTime →
      ∃ s' : SpinTheWheel ℝ,
        animate (exactArith Real.pi) (animateSpin (exactArith Real.pi) t₀ φ startTime) t
          currentTime highlightStart highlightNow = some (s', false) ∧
        0 ≤ s'.currentRotation ∧ s'.currentRotation < 2 * Real.pi ∧
        ∃ k : ℤ, s'.currentRotation - φ = (k : ℝ) * (2 * Real.pi)) := by
  constructor
  · intro hn ht _ _
    obtain ⟨s', hs, hrot, -, -, -⟩ :=
      animate_complete binary64 (animateSpin binary64 s₀ finalRotation startTime) s
        currentTime highlightStart highlightNow hn (binary64_progress _ ht)
    have hmem := normalizeRotation_binary64_mem
      (lastFrameRotation binary64 (animateSpin binary64 s₀ finalRotation startTime))
    rw [← hrot] at hmem
    refine ⟨s', hs, hmem.1, hmem.2, ?_⟩
    have hcast : ((s'.currentRotation : ℚ) : ℝ) < ((2 * mathPI : ℚ) : ℝ) := by
      exact_mod_cast hmem.2
    have hlo := Real.pi_gt_d20
    have hP : ((2 * mathPI : ℚ) : ℝ) = 2 * (884279719003555 / 281474976710656) := by
      simp only [mathPI]
      push_cast
      ring
    rw [hP] at hcast
    linarith
  · intro hn ht
    have hprog : 1 ≤ (exactArith Real.pi).fl
        (((currentTime - (animateSpin (exactArith Real.pi) t₀ φ startTime).startTime : ℤ) : ℝ)
          / 4000) := by
      show (1 : ℝ) ≤ ((currentTime - startTime : ℤ) : ℝ) / 4000
      rw [le_div_iff₀ (by norm_num)]
      have : ((4000 : ℤ) : ℝ) ≤ ((currentTime - startTime : ℤ) : ℝ) := by exact_mod_cast ht
      simpa using this
    obtain ⟨s', hs, hrot, -, -, -⟩ :=
      animate_complete (exactArith Real.pi) (animateSpin (exactArith Real.pi) t₀ φ startTime) t
        currentTime highlightStart highlightNow hn hprog
    rw [lastFrameRotation_exact] at hrot
    obtain ⟨m, hm⟩ := normalizeRotation_exact_exists_int Real.pi φ
    have hmem := normalizeRotation_exact_mem Real.pi_pos φ
    refine ⟨s', hs, ?_, ?_, m, ?_⟩
    · rw [hrot]
      exact hmem.1
    · rw [hrot]
      exact hmem.2
    · rw [hrot, hm]
      ring

/-- Witness of C7 on the two-option wheel with target rotation 40, in doubles and in
exact real arithmetic. -/
theorem C7_rotation_normalized_witness :
    1 ≤ (wheelOf [⟨"A", "#374151"⟩, ⟨"B", "#475569"⟩] : SpinTheWheel ℚ).options.length ∧
    (4000 : ℤ) ≤ 4000 - 0 ∧
    |(wheelOf [⟨"A", "#374151"⟩, ⟨"B", "#475569"⟩] : SpinTheWheel ℚ).currentRotation|
      ≤ 2 ^ 1000 ∧
    |(40 : ℚ)| ≤ 2 ^ 1000 ∧
    (∃ s' : SpinTheWheel ℚ,
      animate binary64
        (animateSpin binary64 (wheelOf [⟨"A", "#374151"⟩, ⟨"B", "#475569"⟩]) 40 0)
        (wheelOf [⟨"A", "#374151"⟩, ⟨"B", "#475569"⟩]) 4000 4000 4000 = some (s', false) ∧
      0 ≤ s'.currentRotation ∧ s'.currentRotation < 2 * binary64.pi ∧
      ((s'.currentRotation : ℚ) : ℝ) < 2 * Real.pi) ∧
    (∃ s' : SpinTheWheel ℝ,
      animate (exactArith Real.pi)
        (animateSpin (exactArith Real.pi) (wheelOf [⟨"A", "#374151"⟩, ⟨"B", "#475569"⟩]) 40 0)
        (wheelOf [⟨"A", "#374151"⟩, ⟨"B", "#475569"⟩]) 4000 4000 4000 = some (s', false) ∧
      0 ≤ s'.currentRotation ∧ s'.currentRotation < 2 * Real.pi ∧
      ∃ k : ℤ, s'.currentRotation - 40 = (k : ℝ) * (2 * Real.pi)) :=
  ⟨by decide, by decide, by norm_num [wheelOf], by norm_num,
    (C7_rotation_normalized (wheelOf [⟨"A", "#374151"⟩, ⟨"B", "#475569"⟩])
      (wheelOf [⟨"A", "#374151"⟩, ⟨"B", "#475569"⟩]) 40
      (wheelOf [⟨"A", "#374151"⟩, ⟨"B", "#475569"⟩])
      (wheelOf [⟨"A", "#374151"⟩, ⟨"B", "#475569"⟩]) 40 0 4000 4000 4000).1
      (by decide) (by decide) (by norm_num [wheelOf]) (by norm_num),
    (C7_rotation_normalized (wheelOf [⟨"A", "#374151"⟩, ⟨"B", "#475569"⟩])
      (wheelOf [⟨"A", "#374151"⟩, ⟨"B", "#475569"⟩]) 40
      (wheelOf [⟨"A", "#374151"⟩, ⟨"B", "#475569"⟩])
      (wheelOf [⟨"A", "#374151"⟩, ⟨"B", "#475569"⟩]) 40 0 4000 4000 4000).2
      (by decide) (by decide)⟩

/-! ## Statistics -/

theorem ownProperty_setProperty_other (st : List (String × JsValue)) (t u : String)
    (v : JsValue) (hne : u ≠ t) :
    ownProperty (setProperty st t v) u = ownProperty st u := by
  have hmap : ∀ l : List (String × JsValue),
      ownProperty (l.map (fun p => if p.1 = t then (t, v) else p)) u = ownProperty l u := by
    intro l
    induction l with
    | nil => rfl
    | cons p l ih =>
      simp only [ownProperty, List.map_cons] at ih ⊢
      by_cases hp : p.1 = t
      · have h1 : ¬ p.1 = u := fun h => hne (h ▸ hp)
        have h2 : ¬ t = u := fun h => hne h.symm
        simp only [hp, if_true, List.find?_cons, h2, decide_False] at ih ⊢
        simpa [List.find?_cons, h1] using ih
      · simp only [hp, if_false, List.find?_cons] at ih ⊢
        cases hd : decide (p.1 = u)
        · simpa using ih
        · rfl
  have happ : ownProperty (st ++ [(t, v)]) u = ownProperty st u := by
    have h2 : ¬ t = u := fun h => hne h.symm
    simp only [ownProperty, List.find?_append, List.find?_cons, h2, decide_False,
      List.find?_nil, Option.or_none]
  unfold setProperty
  split
  · exact hmap st
  · split
    · rfl
    · exact happ

/-- A read of another key is not affected by `updateStatistics`. -/
theorem updateStatistics_other {K : Type} [LinearOrderedField K] [FloorRing K]
    (s : SpinTheWheel K) (t u : String) (hne : u ≠ t) :
    getProperty (updateStatistics s t).statistics u = getProperty s.statistics u := by
  have h : ownProperty (updateStatistics s t).statistics u = ownProperty s.statistics u := by
    simp only [updateStatistics]
    rw [ownProperty_setProperty_other _ _ _ _ hne]
    split
    · exact ownProperty_setProperty_other _ _ _ _ hne
    · rfl
  simp only [getProperty, h]

theorem ownProperty_eq_none_of_any_false (st : List (String × JsValue)) (t : String)
    (h : st.any (fun p => decide (p.1 = t)) = false) : ownProperty st t = none := by
  induction st with
  | nil => rfl
  | cons p l ih =>
    simp only [List.any_cons, Bool.or_eq_false_iff] at h
    simp only [ownProperty, List.find?_cons, h.1] at ih ⊢
    exact ih h.2

theorem ownProperty_isSome_of_any (st : List (String × JsValue)) (t : String)
    (h : st.any (fun p => decide (p.1 = t)) = true) : ∃ v, ownProperty st t = some v := by
  induction st with
  | nil => simp at h
  | cons p l ih =>
    by_cases hp : p.1 = t
    · exact ⟨p.2, by simp [ownProperty, List.find?_cons, hp]⟩
    · have hl : l.any (fun p => decide (p.1 = t)) = true := by
        simpa [List.any_cons, hp] using h
      obtain ⟨v, hv⟩ := ih hl
      exact ⟨v, by simpa [ownProperty, List.find?_cons, hp] using hv⟩

theorem ownProperty_map_self (st : List (String × JsValue)) (t : String) (v : JsValue)
    (h : st.any (fun p => decide (p.1 = t)) = true) :
    ownProperty (st.map (fun p => if p.1 = t then (t, v) else p)) t = some v := by
  induction st with
  | nil => simp at h
  | cons p l ih =>
    by_cases hp : p.1 = t
    · simp [ownProperty, List.find?_cons, hp]
    · have hl : l.any (fun p => decide (p.1 = t)) = true := by
        simpa [List.any_cons, hp] using h
      simpa [ownProperty, List.find?_cons, hp] using ih hl

theorem any_map_self (st : List (String × JsValue)) (t : String) (v : JsValue)
    (h : st.any (fun p => decide (p.1 = t)) = true) :
    (st.map (fun p => if p.1 = t then (t, v) else p)).any (fun p => decide (p.1 = t))
      = true := by
  induction st with
  | nil => simp at h
  | cons p l ih =>
    by_cases hp : p.1 = t
    · simp [hp]
    · have hl : l.any (fun p => decide (p.1 = t)) = true := by
        simpa [List.any_cons, hp] using h
      simp only [List.map_cons, List.any_cons, ih hl, Bool.or_true]

/-- One call of `updateStatistics(t)` stores the count plus one, unless the read of `t`
falls through to `Object.prototype`. -/
theorem updateStatistics_self {K : Type} [LinearOrderedField K] [FloorRing K]
    (s : SpinTheWheel K) (t : String) (h : getProperty s.statistics t ≠ JsValue.inherited) :
    getProperty (updateStatistics s t).statistics t
      = JsValue.number (countOf (getProperty s.statistics t) + 1) := by
  cases hany : s.statistics.any (fun p => decide (p.1 = t))
  · have hown := ownProperty_eq_none_of_any_false _ _ hany
    have hproto : t ∉ objectPrototypeKeys := by
      intro hmem
      exact h (by simp [getProperty, hown, hmem])
    have hne : t ≠ "__proto__" := by
      intro heq
      exact hproto (by rw [heq]; decide)
    have hget : getProperty s.statistics t = JsValue.undefined := by
      simp [getProperty, hown, hproto]
    have hset : ∀ v, setProperty s.statistics t v = s.statistics ++ [(t, v)] := by
      intro v
      simp [setProperty, hany, hne]
    have hany1 : (s.statistics ++ [(t, JsValue.number 0)]).any (fun p => decide (p.1 = t))
        = true := by simp
    have hown1 : ownProperty (s.statistics ++ [(t, JsValue.number 0)]) t
        = some (JsValue.number 0) := by
      have hfind : List.find? (fun p => decide (p.1 = t)) s.statistics = none := by
        simpa [ownProperty] using hown
      simp [ownProperty, List.find?_append, hfind]
    simp only [updateStatistics, hget, isFalsy, if_true, hset (JsValue.number 0)]
    simp only [getProperty, hown1, increment, setProperty, hany1, if_true,
      ownProperty_map_self _ _ _ hany1, countOf]
  · obtain ⟨v, hown⟩ := ownProperty_isSome_of_any _ _ hany
    have hget : getProperty s.statistics t = v := by simp [getProperty, hown]
    rw [hget] at h
    have hset : ∀ (st : List (String × JsValue)) (x : JsValue),
        st.any (fun p => decide (p.1 = t)) = true →
        getProperty (setProperty st t x) t = x := by
      intro st x hst
      simp [getProperty, setProperty, hst, ownProperty_map_self _ _ _ hst]
    have hany0 : (setProperty s.statistics t (JsValue.number 0)).any
        (fun p => decide (p.1 = t)) = true := by
      simp only [setProperty, hany, if_true]
      exact any_map_self _ _ _ hany
    simp only [updateStatistics, hget]
    cases v with
    | undefined =>
      simp only [isFalsy, if_true, hset _ _ hany0, hset _ _ hany, increment, countOf]
    | number n =>
      cases n with
      | zero =>
        simp only [isFalsy, decide_True, if_true, hset _ _ hany0, hset _ _ hany, increment,
          countOf]
      | succ n =>
        have hf : decide (n + 1 = 0) = false := by simp
        simp only [isFalsy, hf, Bool.false_eq_true, if_false, hget, hset _ _ hany, increment,
          countOf]
    | nan =>
      simp only [isFalsy, if_true, hset _ _ hany0, hset _ _ hany, increment, countOf]
    | inherited => exact absurd rfl h

/-- Additivity away from `Object.prototype`: if the read of `t` does not fall through to
an inherited property, `k ≥ 1` calls of `updateStatistics(t)` leave the count of `t`
increased by exactly `k`, and every other text reads as before. -/
theorem updateStatistics_iterate {K : Type} [LinearOrderedField K] [FloorRing K]
    (s : SpinTheWheel K) (t : String) (k : ℕ)
    (h : getProperty s.statistics t ≠ JsValue.inherited) :
    getProperty ((fun x => updateStatistics x t)^[k + 1] s).statistics t
      = JsValue.number (countOf (getProperty s.statistics t) + (k + 1)) ∧
    ∀ u : String, u ≠ t →
      getProperty ((fun x => updateStatistics x t)^[k + 1] s).statistics u
        = getProperty s.statistics u := by
  induction k with
  | zero =>
    exact ⟨by simpa using updateStatistics_self s t h,
      fun u hu => by simpa using updateStatistics_other s t u hu⟩
  | succ k ih =>
    rw [Function.iterate_succ_apply']
    constructor
    · have hne : getProperty ((fun x => updateStatistics x t)^[k + 1] s).statistics t
          ≠ JsValue.inherited := by
        rw [ih.1]
        exact fun hc => by cases hc
      rw [updateStatistics_self _ t hne, ih.1]
      simp only [countOf]
      congr 1
    · intro u hu
      rw [updateStatistics_other _ t u hu]
      exact ih.2 u hu

/-- The code at the failing input of C8: on the empty statistics object one call of
`updateStatistics("constructor")` stores `NaN`, not the count 1. -/
theorem C8_inherited_key_yields_nan :
    (updateStatistics (wheelOf [] : SpinTheWheel ℚ) "constructor").statistics
      = [("constructor", JsValue.nan)] ∧
    getProperty (updateStatistics (wheelOf [] : SpinTheWheel ℚ) "constructor").statistics
      "constructor" ≠ JsValue.number 1 := by
  decide

/-! ## Option-list mutations -/

section Mutations

variable {K : Type} [LinearOrderedField K] [FloorRing K]

theorem length_splice1_ge {α : Type} (l : List α) (index : ℤ) :
    l.length ≤ (splice1 l index).length + 1 := by
  have h : ∀ k : ℕ, l.length ≤ (l.eraseIdx k).length + 1 := by
    intro k
    rw [List.length_eraseIdx]
    split <;> omega
  exact h _

theorem length_foldl_splice1_ge (indices : List ℕ) (l : List WheelOption) :
    l.length ≤ (indices.foldl
      (fun (opts : List WheelOption) (index : ℕ) => splice1 opts (index : ℤ)) l).length
      + indices.length := by
  induction indices generalizing l with
  | nil => simp
  | cons i rest ih =>
    have h1 := length_splice1_ge l (i : ℤ)
    have h2 := ih (splice1 l (i : ℤ))
    simp only [List.foldl_cons, List.length_cons]
    omega

/-- The guard of `removeSelectedOptions`: a removal that would leave fewer than 2 options
does not touch the list. -/
theorem removeSelectedOptions_rejected (s : SpinTheWheel K) (confirmAnswer : Bool)
    (h : (s.options.length : ℤ) - (s.selectedOptions.length : ℤ) < 2) :
    (removeSelectedOptions s confirmAnswer).options = s.options := by
  unfold removeSelectedOptions
  split
  · rfl
  · simp only [h, if_true, showToast]

/-- With selection mode on, the wheel idle and a non-empty selection, the rejected removal
is reported as an error. -/
theorem removeSelectedOptions_rejected_toast (s : SpinTheWheel K) (confirmAnswer : Bool)
    (h : (s.options.length : ℤ) - (s.selectedOptions.length : ℤ) < 2)
    (hmode : s.selectionMode = true) (hidle : s.isSpinning = false)
    (hsel : s.selectedOptions ≠ []) :
    (removeSelectedOptions s confirmAnswer).toasts = s.toasts ++
      [⟨"Cannot remove selected options - at least 2 options must remain", "error"⟩] := by
  have hlen : (s.selectedOptions.length == 0) = false := by
    simp only [beq_eq_false_iff_ne, ne_eq, List.length_eq_zero]
    exact hsel
  simp only [removeSelectedOptions, hmode, hidle, hlen, Bool.not_true, Bool.or_self,
    Bool.false_eq_true, if_false, h, if_true, showToast]

theorem removeSelectedOptions_length (s : SpinTheWheel K) (confirmAnswer : Bool)
    (h : 2 ≤ s.options.length) : 2 ≤ (removeSelectedOptions s confirmAnswer).options.length := by
  unfold removeSelectedOptions
  split
  · exact h
  · dsimp only
    split
    · exact h
    · split
      · exact h
      · have hlen := length_foldl_splice1_ge
          (s.selectedOptions.insertionSort (fun a b => b ≤ a)) s.options
        rw [List.length_insertionSort] at hlen
        simp only [showToast, updateOptionsDisplay_options]
        omega

theorem confirmRemoveWinner_of_le_two (s : SpinTheWheel K) (h : s.options.length ≤ 2) :
    confirmRemoveWinner s = some (hideRemoveWinnerModal s) := by
  have h2 : ¬ s.options.length > 2 := by omega
  simp only [confirmRemoveWinner, h2, and_false, if_false]

theorem confirmRemoveWinner_length (s s' : SpinTheWheel K) (h : 2 ≤ s.options.length)
    (hs : confirmRemoveWinner s = some s') : 2 ≤ s'.options.length := by
  unfold confirmRemoveWinner at hs
  split at hs
  · rename_i hc
    split at hs
    · rename_i _ i _
      split at hs
      · have hl := length_splice1_ge s.options (i : ℤ)
        simp only [Option.some.injEq] at hs
        rw [← hs]
        simp only [hideRemoveWinnerModal, showToast, updateOptionsDisplay_options]
        have := hc.2
        omega
      · cases hs
    · cases hs
  · simp only [Option.some.injEq] at hs
    rw [← hs]
    exact h

end Mutations

/-- C9, as stated, fails: on the wheel with the single option "A", selection mode on and
nothing selected, the removal would leave fewer than 2 options, yet
`removeSelectedOptions` returns without any notification. -/
theorem C9_silent_when_nothing_selected :
    ¬ ∀ (s : SpinTheWheel ℚ) (confirmAnswer : Bool),
      (s.options.length : ℤ) - (s.selectedOptions.length : ℤ) < 2 →
      (removeSelectedOptions s confirmAnswer).options = s.options ∧
      ∃ message : String, (removeSelectedOptions s confirmAnswer).toasts
        = s.toasts ++ [⟨message, "error"⟩] := by
  intro h
  obtain ⟨-, message, hm⟩ :=
    h { (wheelOf [⟨"A", "#374151"⟩] : SpinTheWheel ℚ) with selectionMode := true } true
      (by decide)
  simp [removeSelectedOptions, wheelOf] at hm

/-- C9, amended: neither bulk removal nor post-win removal shrinks the wheel below 2
options. If `removeSelectedOptions` is called with a selection whose removal would leave
fewer than 2 options, the option list is unchanged, and when selection mode is on, the
wheel is not spinning and the selection is not empty an error notification is emitted;
`confirmRemoveWinner` returns with the option list unchanged whenever
options.length ≤ 2; and a wheel with at least 2 options keeps at least 2 through either
operation. -/
theorem C9_removal_keeps_two_options {K : Type} [LinearOrderedField K] [FloorRing K]
    (s : SpinTheWheel K) (confirmAnswer : Bool) :
    ((s.options.length : ℤ) - (s.selectedOptions.length : ℤ) < 2 →
      (removeSelectedOptions s confirmAnswer).options = s.options ∧
      (s.selectionMode = true → s.isSpinning = false → s.selectedOptions ≠ [] →
        (removeSelectedOptions s confirmAnswer).toasts = s.toasts ++
          [⟨"Cannot remove selected options - at least 2 options must remain", "error"⟩])) ∧
    (s.options.length ≤ 2 →
      ∃ s' : SpinTheWheel K, confirmRemoveWinner s = some s' ∧ s'.options = s.options) ∧
    (2 ≤ s.options.length →
      2 ≤ (removeSelectedOptions s confirmAnswer).options.length ∧
      ∀ s' : SpinTheWheel K, confirmRemoveWinner s = some s' → 2 ≤ s'.options.length) :=
  ⟨fun h => ⟨removeSelectedOptions_rejected s confirmAnswer h,
      removeSelectedOptions_rejected_toast s confirmAnswer h⟩,
    fun h => ⟨_, confirmRemoveWinner_of_le_two s h, rfl⟩,
    fun h => ⟨removeSelectedOptions_length s confirmAnswer h,
      fun s' hs => confirmRemoveWinner_length s s' h hs⟩⟩

/-- Witness of C9 on the scenario of removing 3 of 4 options: rejected, with the error
notification. -/
theorem C9_removal_keeps_two_options_witness :
    (bulkRemoveScenario.options.length : ℤ) - (bulkRemoveScenario.selectedOptions.length : ℤ) < 2 ∧
    (removeSelectedOptions bulkRemoveScenario true).options = bulkRemoveScenario.options ∧
    (removeSelectedOptions bulkRemoveScenario true).toasts =
      [⟨"Cannot remove selected options - at least 2 options must remain", "error"⟩] :=
  ⟨by decide, ((C9_removal_keeps_two_options bulkRemoveScenario true).1 (by decide)).1,
    ((C9_removal_keeps_two_options bulkRemoveScenario true).1 (by decide)).2 rfl rfl
      (by decide)⟩

section AddOption

variable {K : Type} [LinearOrderedField K] [FloorRing K]

/-- At 50 options or more the loop of `addOption` pushes nothing. -/
theorem addOptionLoop_options_of_full (ops : StringOps) (texts : List String)
    (s : SpinTheWheel K) (addedCount duplicateCount : ℕ) (h : 50 ≤ s.options.length) :
    (addOptionLoop ops texts s addedCount duplicateCount).1.options = s.options := by
  induction texts generalizing duplicateCount with
  | nil => rfl
  | cons text rest ih =>
    unfold addOptionLoop
    split
    · exact ih (duplicateCount + 1)
    · have hge : s.options.length ≥ 50 := h
      simp only [hge, if_true, showToast]

/-- The loop of `addOption` never takes the list past 50 options. -/
theorem addOptionLoop_length_le (ops : StringOps) (texts : List String)
    (s : SpinTheWheel K) (addedCount duplicateCount : ℕ) (h : s.options.length ≤ 50) :
    (addOptionLoop ops texts s addedCount duplicateCount).1.options.length ≤ 50 := by
  induction texts generalizing s addedCount duplicateCount with
  | nil => exact h
  | cons text rest ih =>
    unfold addOptionLoop
    split
    · exact ih s addedCount (duplicateCount + 1) h
    · split
      · simpa only [showToast] using h
      · rename_i hlt
        apply ih
        simp only [List.length_append, List.length_singleton]
        omega

/-- The option list `addOption` leaves: the old one when the input is blank, else the one
its loop leaves. -/
theorem addOption_options (ops : StringOps) (s : SpinTheWheel K) :
    (addOption ops s).options =
      if ops.trim s.optionInput = "" then s.options
      else (addOptionLoop ops (optionsToAdd ops (ops.trim s.optionInput)) s 0 0).1.options := by
  unfold addOption
  dsimp only
  split
  · rfl
  · split
    · simp only [showToast, updateOptionsDisplay_options]
    · split
      · simp only [showToast, updateOptionsDisplay_options]
      · simp only [updateOptionsDisplay_options]

end AddOption

/-- C10: the 50-option cap. For every state holding exactly 50 options and every input
text, `addOption` leaves the option list unchanged; and for every state with at most 50
options, `addOption` never yields more than 50. -/
theorem C10_fifty_option_cap {K : Type} [LinearOrderedField K] [FloorRing K]
    (ops : StringOps) (s : SpinTheWheel K) (input : String) :
    (s.options.length = 50 →
      (addOption ops { s with optionInput := input }).options = s.options) ∧
    (s.options.length ≤ 50 →
      (addOption ops { s with optionInput := input }).options.length ≤ 50) := by
  rw [addOption_options]
  constructor
  · intro h
    split
    · rfl
    · exact addOptionLoop_options_of_full ops _ _ 0 0 (by simp only [h]; exact le_refl 50)
  · intro h
    split
    · exact h
    · exact addOptionLoop_length_le ops _ _ 0 0 h

/-- Witness of C10 on a wheel with fifty options and the input "Fifty-one". -/
theorem C10_fifty_option_cap_witness :
    (wheelOf fiftyOptions : SpinTheWheel ℚ).options.length = 50 ∧
    (addOption asciiStringOps
      { (wheelOf fiftyOptions : SpinTheWheel ℚ) with optionInput := "Fifty-one" }).options
      = fiftyOptions :=
  ⟨by simp [wheelOf, fiftyOptions],
    (C10_fifty_option_cap asciiStringOps (wheelOf fiftyOptions) "Fifty-one").1
      (by simp [wheelOf, fiftyOptions])⟩

/-! ## Uniqueness of option texts -/

section Uniqueness

variable {K : Type} [LinearOrderedField K] [FloorRing K]

/-- The loop of `addOption` keeps the texts pairwise distinct up to case. -/
theorem addOptionLoop_uniqueTexts (ops : StringOps) (texts : List String)
    (s : SpinTheWheel K) (addedCount duplicateCount : ℕ) (h : UniqueTexts ops s.options) :
    UniqueTexts ops (addOptionLoop ops texts s addedCount duplicateCount).1.options := by
  induction texts generalizing s addedCount duplicateCount with
  | nil => exact h
  | cons text rest ih =>
    unfold addOptionLoop
    split
    · exact ih s addedCount (duplicateCount + 1) h
    · rename_i hdup
      split
      · simpa only [showToast] using h
      · apply ih
        simp only [UniqueTexts, List.pairwise_append, List.pairwise_singleton,
          List.mem_singleton, true_and]
        refine ⟨h, ?_⟩
        intro a ha b hb
        subst hb
        intro heq
        apply hdup
        simp only [List.any_eq_true, decide_eq_true_eq]
        exact ⟨a, ha, heq⟩

end Uniqueness

/-- C11: uniqueness invariant. If no two options have equal text under lower-cased
comparison before `addOption`, then for every input text (multi-line input that repeats
a line or repeats an existing option in another case included) no two options have equal
lower-cased text after `addOption`. -/
theorem C11_unique_texts_preserved {K : Type} [LinearOrderedField K] [FloorRing K]
    (ops : StringOps) (s : SpinTheWheel K) (input : String)
    (h : UniqueTexts ops s.options) :
    UniqueTexts ops (addOption ops { s with optionInput := input }).options := by
  rw [addOption_options]
  split
  · exact h
  · exact addOptionLoop_uniqueTexts ops _ _ 0 0 h

/-- Witness of C11: the options "A", "B" and the input of the lines "c", "a", "C". -/
theorem C11_unique_texts_preserved_witness :
    UniqueTexts simpleStringOps
      (wheelOf [⟨"A", "#374151"⟩, ⟨"B", "#475569"⟩] : SpinTheWheel ℚ).options ∧
    UniqueTexts simpleStringOps
      (addOption simpleStringOps
        { (wheelOf [⟨"A", "#374151"⟩, ⟨"B", "#475569"⟩] : SpinTheWheel ℚ) with
          optionInput := "c" ++ newline ++ "a" ++ newline ++ "C" }).options :=
  ⟨by simp [UniqueTexts, wheelOf, simpleStringOps],
    C11_unique_texts_preserved simpleStringOps _ _
      (by simp [UniqueTexts, wheelOf, simpleStringOps])⟩

/-! ## Mutations while spinning -/

/-- While the wheel spins, `removeOption` and `clearAllOptions` leave the state as it
is. -/
theorem spinning_guards {K : Type} [LinearOrderedField K] [FloorRing K]
    (s : SpinTheWheel K) (index : ℤ) (confirmAnswer : Bool) (h : s.isSpinning = true) :
    removeOption s index = s ∧ clearAllOptions s confirmAnswer = s := by
  simp only [removeOption, clearAllOptions, h, if_true, and_self]

/-- The code at the failing input of C12: on a spinning wheel with the options "A" and
"B", `addOption` with the input "C" pushes a third option. -/
theorem C12_addOption_while_spinning :
    ({ (wheelOf [⟨"A", "#374151"⟩, ⟨"B", "#475569"⟩] : SpinTheWheel ℚ) with
        isSpinning := true, optionInput := "C" } : SpinTheWheel ℚ).isSpinning = true ∧
    (addOption simpleStringOps
      { (wheelOf [⟨"A", "#374151"⟩, ⟨"B", "#475569"⟩] : SpinTheWheel ℚ) with
        isSpinning := true, optionInput := "C" }).options
      = [⟨"A", "#374151"⟩, ⟨"B", "#475569"⟩, ⟨"C", "#334155"⟩] := by
  decide

/-! ## Rejected spin requests -/

/-- C13, as stated, fails: on the idle wheel without options `spin` returns without any
notification. -/
theorem C13_empty_wheel_spin_is_silent :
    (wheelOf [] : SpinTheWheel ℚ).isSpinning = false ∧
    (wheelOf [] : SpinTheWheel ℚ).options.length < 2 ∧
    (spin binary64 (wheelOf []) 0 0).1.toasts = (wheelOf [] : SpinTheWheel ℚ).toasts := by
  simp [spin, wheelOf]

/-- C13, amended: for every non-spinning state with fewer than 2 options, `spin` starts
no spin: no target is handed to `animateSpin`, `isSpinning` stays false, and
`currentRotation`, the options and the highlight state are unchanged. With exactly 1
option it emits the error notification "Add at least 2 options to spin"; with 0 options
it returns without a notification, the state untouched. -/
theorem C13_spin_rejected {K : Type} [LinearOrderedField K] [FloorRing K]
    (A : Arith K) (s : SpinTheWheel K) (r1 r2 : K)
    (hidle : s.isSpinning = false) (hn : s.options.length < 2) :
    (spin A s r1 r2).2 = none ∧
    (spin A s r1 r2).1.isSpinning = false ∧
    (spin A s r1 r2).1.currentRotation = s.currentRotation ∧
    (spin A s r1 r2).1.options = s.options ∧
    (spin A s r1 r2).1.highlightIndex = s.highlightIndex ∧
    (spin A s r1 r2).1.highlightStartTime = s.highlightStartTime ∧
    (spin A s r1 r2).1.highlightProgress = s.highlightProgress ∧
    (s.options.length = 1 →
      (spin A s r1 r2).1.toasts = s.toasts ++ [⟨"Add at least 2 options to spin", "error"⟩]) ∧
    (s.options.length = 0 → (spin A s r1 r2).1 = s) := by
  by_cases h0 : s.options.length = 0
  · have hb : (s.options.length == 0) = true := by simp [h0]
    simp [spin, hidle, hb, h0]
  · have hb : (s.options.length == 0) = false := by simp [h0]
    have h1 : s.options.length = 1 := by omega
    simp [spin, hidle, hb, hn, showToast, h1]

/-- Witness of C13 on the idle wheel with the single option "A". -/
theorem C13_spin_rejected_witness :
    (wheelOf [⟨"A", "#374151"⟩] : SpinTheWheel ℚ).isSpinning = false ∧
    (wheelOf [⟨"A", "#374151"⟩] : SpinTheWheel ℚ).options.length < 2 ∧
    (spin binary64 (wheelOf [⟨"A", "#374151"⟩]) 0 0).2 = none ∧
    (spin binary64 (wheelOf [⟨"A", "#374151"⟩]) 0 0).1.toasts
      = [⟨"Add at least 2 options to spin", "error"⟩] :=
  ⟨rfl, by decide,
    (C13_spin_rejected binary64 (wheelOf [⟨"A", "#374151"⟩]) 0 0 rfl (by decide)).1,
    (C13_spin_rejected binary64 (wheelOf [⟨"A", "#374151"⟩]) 0 0 rfl
      (by decide)).2.2.2.2.2.2.2.1 rfl⟩

/-! ## Input errors of `addOption` -/

section AddOptionErrors

variable {K : Type} [LinearOrderedField K] [FloorRing K]

/-- The loop of `addOption` only appends: the list it starts from stays in front. -/
theorem addOptionLoop_prefix (ops : StringOps) (texts : List String)
    (s : SpinTheWheel K) (addedCount duplicateCount : ℕ) :
    ∃ added : List WheelOption,
      (addOptionLoop ops texts s addedCount duplicateCount).1.options = s.options ++ added := by
  induction texts generalizing s addedCount duplicateCount with
  | nil => exact ⟨[], by simp [addOptionLoop]⟩
  | cons text rest ih =>
    unfold addOptionLoop
    split
    · exact ih s addedCount (duplicateCount + 1)
    · split
      · exact ⟨[], by simp [showToast]⟩
      · obtain ⟨added, h⟩ := ih
          { s with options := s.options ++
              [{ text := text, color := colorAt s.options.length }] }
          (addedCount + 1) duplicateCount
        exact ⟨{ text := text, color := colorAt s.options.length } :: added, by
          rw [h]
          simp⟩

/-- When every line duplicates an option of the list, the loop pushes nothing. -/
theorem addOptionLoop_all_duplicates (ops : StringOps) (texts : List String)
    (s : SpinTheWheel K) (addedCount duplicateCount : ℕ)
    (h : ∀ text ∈ texts, s.options.any
      (fun option => decide (ops.toLowerCase option.text = ops.toLowerCase text)) = true) :
    (addOptionLoop ops texts s addedCount duplicateCount).1.options = s.options := by
  induction texts generalizing duplicateCount with
  | nil => rfl
  | cons text rest ih =>
    unfold addOptionLoop
    rw [if_pos (h text (List.mem_cons_self _ _))]
    exact ih (duplicateCount + 1) (fun t ht => h t (List.mem_cons_of_mem _ ht))

/-- An input that is blank after `trim` is reported and changes nothing else. -/
theorem addOption_blank (ops : StringOps) (s : SpinTheWheel K)
    (h : ops.trim s.optionInput = "") :
    addOption ops s = showToast s "Please enter an option" "error" := by
  simp only [addOption, h, if_true]

end AddOptionErrors

/-- C14, as stated, fails: with the options "A", "B" and the input of the two lines "C"
and "a", the second line duplicates the option "A", yet the list after the call holds the
new option "C". -/
theorem C14_line_added_before_duplicate :
    "a" ∈ optionsToAdd simpleStringOps (simpleStringOps.trim ("C" ++ newline ++ "a")) ∧
    (wheelOf [⟨"A", "#374151"⟩, ⟨"B", "#475569"⟩] : SpinTheWheel ℚ).options.any
      (fun option => decide
        (simpleStringOps.toLowerCase option.text = simpleStringOps.toLowerCase "a")) = true ∧
    (addOption simpleStringOps
      { (wheelOf [⟨"A", "#374151"⟩, ⟨"B", "#475569"⟩] : SpinTheWheel ℚ) with
        optionInput := "C" ++ newline ++ "a" }).options
      = [⟨"A", "#374151"⟩, ⟨"B", "#475569"⟩, ⟨"C", "#334155"⟩] ∧
    (addOption simpleStringOps
      { (wheelOf [⟨"A", "#374151"⟩, ⟨"B", "#475569"⟩] : SpinTheWheel ℚ) with
        optionInput := "C" ++ newline ++ "a" }).options
      ≠ (wheelOf [⟨"A", "#374151"⟩, ⟨"B", "#475569"⟩] : SpinTheWheel ℚ).options := by
  decide

/-- C14, amended: `addOption` never alters or removes an existing option. For every state
and every input text the option list after the call is the list before followed by the
options the call appended; it is exactly the list before when the text is empty (reported
as an error), when every line duplicates an existing option, and when the list already
holds 50 options. -/
theorem C14_addOption_keeps_prior_options {K : Type} [LinearOrderedField K] [FloorRing K]
    (ops : StringOps) (s : SpinTheWheel K) (input : String) :
    (∃ added : List WheelOption,
      (addOption ops { s with optionInput := input }).options = s.options ++ added) ∧
    (ops.trim input = "" →
      (addOption ops { s with optionInput := input }).options = s.options ∧
      (addOption ops { s with optionInput := input }).toasts
        = s.toasts ++ [⟨"Please enter an option", "error"⟩]) ∧
    ((∀ text ∈ optionsToAdd ops (ops.trim input), s.options.any
        (fun option => decide (ops.toLowerCase option.text = ops.toLowerCase text)) = true) →
      (addOption ops { s with optionInput := input }).options = s.options) ∧
    (50 ≤ s.options.length →
      (addOption ops { s with optionInput := input }).options = s.options) := by
  refine ⟨?_, ?_, ?_, ?_⟩
  · rw [addOption_options]
    split
    · exact ⟨[], by simp⟩
    · exact addOptionLoop_prefix ops _ _ 0 0
  · intro h
    rw [addOption_blank ops _ h]
    exact ⟨rfl, rfl⟩
  · intro h
    rw [addOption_options]
    split
    · rfl
    · exact addOptionLoop_all_duplicates ops _ _ 0 0 h
  · intro h
    rw [addOption_options]
    split
    · rfl
    · exact addOptionLoop_options_of_full ops _ _ 0 0 h

/-- Witness of C14: the options "A", "B" and the input of the two lines "a" and "B", both
duplicates. -/
theorem C14_addOption_keeps_prior_options_witness :
    (∀ text ∈ optionsToAdd simpleStringOps (simpleStringOps.trim ("a" ++ newline ++ "B")),
      (wheelOf [⟨"A", "#374151"⟩, ⟨"B", "#475569"⟩] : SpinTheWheel ℚ).options.any
        (fun option => decide
          (simpleStringOps.toLowerCase option.text = simpleStringOps.toLowerCase text))
        = true) ∧
    (addOption simpleStringOps
      { (wheelOf [⟨"A", "#374151"⟩, ⟨"B", "#475569"⟩] : SpinTheWheel ℚ) with
        optionInput := "a" ++ newline ++ "B" }).options
      = [⟨"A", "#374151"⟩, ⟨"B", "#475569"⟩] :=
  ⟨by decide,
    (C14_addOption_keeps_prior_options simpleStringOps
      (wheelOf [⟨"A", "#374151"⟩, ⟨"B", "#475569"⟩]) ("a" ++ newline ++ "B")).2.2.1
      (by decide)⟩

/-! ## Highlight validity -/

section Highlight

variable {K : Type} [LinearOrderedField K] [FloorRing K]

/-- The check at the end of `updateOptionsDisplay` settles the highlight. -/
theorem updateOptionsDisplay_settled (s t : SpinTheWheel K)
    (h : t.highlightIndex = s.highlightIndex) :
    HighlightSettled s (updateOptionsDisplay t) := by
  unfold HighlightSettled HighlightValid updateOptionsDisplay
  rw [← h]
  cases hi : t.highlightIndex with
  | none => simp [hi]
  | some j =>
    by_cases hj : j ≥ t.options.length
    · simp [hj]
    · simp only [hj, if_false, hi]
      refine ⟨?_, Or.inr ⟨j, rfl, by omega⟩⟩
      intro i hij hle
      simp only [Option.some.injEq] at hij
      omega

theorem addOptionLoop_highlightIndex (ops : StringOps) (texts : List String)
    (s : SpinTheWheel K) (addedCount duplicateCount : ℕ) :
    (addOptionLoop ops texts s addedCount duplicateCount).1.highlightIndex
      = s.highlightIndex := by
  induction texts generalizing s addedCount duplicateCount with
  | nil => rfl
  | cons text rest ih =>
    unfold addOptionLoop
    split
    · exact ih s addedCount (duplicateCount + 1)
    · split
      · rfl
      · rw [ih]

/-- The operation `removeOption` either leaves options and highlight alone or settles the
highlight. -/
theorem removeOption_highlight (s : SpinTheWheel K) (index : ℤ) :
    ((removeOption s index).options = s.options ∧
      (removeOption s index).highlightIndex = s.highlightIndex) ∨
    HighlightSettled s (removeOption s index) := by
  unfold removeOption
  split
  · exact Or.inl ⟨rfl, rfl⟩
  · exact Or.inr (updateOptionsDisplay_settled s _ rfl)

theorem removeSelectedOptions_highlight (s : SpinTheWheel K) (confirmAnswer : Bool) :
    ((removeSelectedOptions s confirmAnswer).options = s.options ∧
      (removeSelectedOptions s confirmAnswer).highlightIndex = s.highlightIndex) ∨
    HighlightSettled s (removeSelectedOptions s confirmAnswer) := by
  unfold removeSelectedOptions
  split
  · exact Or.inl ⟨rfl, rfl⟩
  · dsimp only
    split
    · exact Or.inl ⟨rfl, rfl⟩
    · split
      · exact Or.inl ⟨rfl, rfl⟩
      · exact Or.inr (updateOptionsDisplay_settled s _ rfl)

theorem confirmRemoveWinner_highlight (s s' : SpinTheWheel K)
    (hs : confirmRemoveWinner s = some s') :
    (s'.options = s.options ∧ s'.highlightIndex = s.highlightIndex) ∨
    HighlightSettled s s' := by
  unfold confirmRemoveWinner at hs
  split at hs
  · split at hs
    · split at hs
      · simp only [Option.some.injEq] at hs
        rw [← hs]
        exact Or.inr (updateOptionsDisplay_settled s _ rfl)
      · cases hs
    · cases hs
  · simp only [Option.some.injEq] at hs
    rw [← hs]
    exact Or.inl ⟨rfl, rfl⟩

theorem clearAllOptions_highlight (s : SpinTheWheel K) (confirmAnswer : Bool) :
    ((clearAllOptions s confirmAnswer).options = s.options ∧
      (clearAllOptions s confirmAnswer).highlightIndex = s.highlightIndex) ∨
    HighlightSettled s (clearAllOptions s confirmAnswer) := by
  unfold clearAllOptions
  split
  · exact Or.inl ⟨rfl, rfl⟩
  · split
    · exact Or.inl ⟨rfl, rfl⟩
    · split
      · exact Or.inr (updateOptionsDisplay_settled s _ rfl)
      · exact Or.inl ⟨rfl, rfl⟩

theorem loadWheel_highlight (s : SpinTheWheel K) (name : String)
    (dataOptions : List WheelOption) :
    ((loadWheel s name dataOptions).options = s.options ∧
      (loadWheel s name dataOptions).highlightIndex = s.highlightIndex) ∨
    HighlightSettled s (loadWheel s name dataOptions) := by
  unfold loadWheel
  split
  · exact Or.inl ⟨rfl, rfl⟩
  · exact Or.inr (updateOptionsDisplay_settled s _ rfl)

theorem addOption_highlight (ops : StringOps) (s : SpinTheWheel K) :
    ((addOption ops s).options = s.options ∧
      (addOption ops s).highlightIndex = s.highlightIndex) ∨
    HighlightSettled s (addOption ops s) := by
  unfold addOption
  dsimp only
  split
  · exact Or.inl ⟨rfl, rfl⟩
  · have h := updateOptionsDisplay_settled s
      { (addOptionLoop ops (optionsToAdd ops (ops.trim s.optionInput)) s 0 0).1 with
        optionInput := "" }
      (addOptionLoop_highlightIndex ops _ s 0 0)
    split
    · exact Or.inr h
    · split
      · exact Or.inr h
      · exact Or.inr h

end Highlight

/-- C15: highlight validity. Let `s'` be the state after any of `removeOption`,
`removeSelectedOptions`, `confirmRemoveWinner`, `clearAllOptions`, `loadWheel` and
`addOption`. If the operation changed the option list and the highlighted index was at
or past the new option count, then `highlightIndex` and `highlightStartTime` are null and
`highlightProgress` is 0, and the highlight of `s'` is null or a valid index; hence a
valid highlight before any of these operations is a valid highlight after it. -/
theorem C15_highlight_valid_after_mutation {K : Type} [LinearOrderedField K] [FloorRing K]
    (ops : StringOps) (s s' : SpinTheWheel K) (index : ℤ) (confirmAnswer : Bool)
    (name input : String) (dataOptions : List WheelOption)
    (hop : s' = removeOption s index ∨ s' = removeSelectedOptions s confirmAnswer ∨
      confirmRemoveWinner s = some s' ∨ s' = clearAllOptions s confirmAnswer ∨
      s' = loadWheel s name dataOptions ∨
      s' = addOption ops { s with optionInput := input }) :
    (s'.options ≠ s.options →
      (∀ i : ℕ, s.highlightIndex = some i → s'.options.length ≤ i →
        s'.highlightIndex = none ∧ s'.highlightStartTime = none ∧ s'.highlightProgress = 0) ∧
      (s'.highlightIndex = none ∨ ∃ i : ℕ, s'.highlightIndex = some i ∧ i < s'.options.length)) ∧
    (HighlightValid s → HighlightValid s') := by
  have key : (s'.options = s.options ∧ s'.highlightIndex = s.highlightIndex) ∨
      HighlightSettled s s' := by
    rcases hop with h | h | h | h | h | h
    · rw [h]
      exact removeOption_highlight s index
    · rw [h]
      exact removeSelectedOptions_highlight s confirmAnswer
    · exact confirmRemoveWinner_highlight s s' h
    · rw [h]
      exact clearAllOptions_highlight s confirmAnswer
    · rw [h]
      exact loadWheel_highlight s name dataOptions
    · rw [h]
      exact addOption_highlight ops { s with optionInput := input }
  rcases key with ⟨ho, hh⟩ | hset
  · refine ⟨fun hne => absurd ho hne, ?_⟩
    intro hv
    unfold HighlightValid at hv ⊢
    rw [ho, hh]
    exact hv
  · exact ⟨fun _ => hset, fun _ => hset.2⟩

/-- Witness of C15: the options "A", "B", "C" with the third one highlighted; removing the
option at index 2 clears the highlight. -/
theorem C15_highlight_valid_after_mutation_witness :
    (removeOption
      { (wheelOf [⟨"A", "#374151"⟩, ⟨"B", "#475569"⟩, ⟨"C", "#334155"⟩] : SpinTheWheel ℚ) with
        highlightIndex := some 2, highlightStartTime := some 1000 } 2).options
      ≠ [⟨"A", "#374151"⟩, ⟨"B", "#475569"⟩, ⟨"C", "#334155"⟩] ∧
    (removeOption
      { (wheelOf [⟨"A", "#374151"⟩, ⟨"B", "#475569"⟩, ⟨"C", "#334155"⟩] : SpinTheWheel ℚ) with
        highlightIndex := some 2, highlightStartTime := some 1000 } 2).highlightIndex = none ∧
    (removeOption
      { (wheelOf [⟨"A", "#374151"⟩, ⟨"B", "#475569"⟩, ⟨"C", "#334155"⟩] : SpinTheWheel ℚ) with
        highlightIndex := some 2, highlightStartTime := some 1000 } 2).highlightStartTime
      = none :=
  have h := (C15_highlight_valid_after_mutation simpleStringOps
    { (wheelOf [⟨"A", "#374151"⟩, ⟨"B", "#475569"⟩, ⟨"C", "#334155"⟩] : SpinTheWheel ℚ) with
      highlightIndex := some 2, highlightStartTime := some 1000 }
    _ 2 false "" "" [] (Or.inl rfl)).1 (by decide)
  ⟨by decide, (h.1 2 rfl (by decide)).1, (h.1 2 rfl (by decide)).2.1⟩

/-! ## Bulk removal -/

section BulkRemoval

variable {K : Type} [LinearOrderedField K] [FloorRing K]

/-- On a natural index `splice(index, 1)` erases the entry at that position. -/
theorem splice1_natCast {α : Type} (l : List α) (i : ℕ) :
    splice1 l (i : ℤ) = l.eraseIdx i := by
  unfold splice1
  have hneg : ¬ ((i : ℤ) < 0) := by omega
  simp only [hneg, if_false]
  by_cases h : i ≤ l.length
  · have : (min (i : ℤ) (l.length : ℤ)).toNat = i := by
      rw [min_eq_left (by exact_mod_cast h)]
      simp
    rw [this]
  · have : (min (i : ℤ) (l.length : ℤ)).toNat = l.length := by
      rw [min_eq_right (by exact_mod_cast (by omega : l.length ≤ i))]
      simp
    rw [this, List.eraseIdx_of_length_le (le_refl _),
      List.eraseIdx_of_length_le (by omega : l.length ≤ i)]

theorem keepUnselected_congr {α : Type} (S T : List ℕ) (h : ∀ x, x ∈ S ↔ x ∈ T)
    (k : ℕ) (l : List α) : keepUnselected S k l = keepUnselected T k l := by
  induction l generalizing k with
  | nil => rfl
  | cons x xs ih => simp only [keepUnselected, h k, ih]

theorem keepUnselected_nil {α : Type} (k : ℕ) (l : List α) :
    keepUnselected [] k l = l := by
  induction l generalizing k with
  | nil => rfl
  | cons x xs ih => simp [keepUnselected, ih]

theorem keepUnselected_cons_of_lt {α : Type} (T : List ℕ) (j k : ℕ) (hj : j < k)
    (l : List α) : keepUnselected (j :: T) k l = keepUnselected T k l := by
  induction l generalizing k with
  | nil => rfl
  | cons x xs ih =>
    have hne : k ≠ j := by omega
    simp only [keepUnselected, List.mem_cons, hne, false_or, ih (k + 1) (by omega)]

/-- Erasing position `i` of the restricted list, when every position already dropped lies
further right, is the restriction that also drops `i`. -/
theorem eraseIdx_keepUnselected {α : Type} (T : List ℕ) (l : List α) (k i : ℕ)
    (h : ∀ t ∈ T, k + i < t) :
    (keepUnselected T k l).eraseIdx i = keepUnselected ((k + i) :: T) k l := by
  induction l generalizing k i with
  | nil => simp [keepUnselected]
  | cons x xs ih =>
    have hk : k ∉ T := fun hm => by
      have := h k hm
      omega
    cases i with
    | zero =>
      simp only [keepUnselected, hk, if_false, List.eraseIdx_cons_zero, Nat.add_zero,
        List.mem_cons, true_or, if_true]
      exact (keepUnselected_cons_of_lt T k (k + 1) (by omega) xs).symm
    | succ i =>
      have hne : ¬ (k = k + (i + 1)) := by omega
      have hih := ih (k + 1) i (fun t ht => by
        have := h t ht
        omega)
      have hki : k + 1 + i = k + (i + 1) := by omega
      rw [hki] at hih
      simp only [keepUnselected, hk, if_false, List.eraseIdx_cons_succ, List.mem_cons, hne,
        hih, or_self]

/-- Splicing out strictly descending positions one after the other restricts the list to
the positions that were not spliced. -/
theorem foldl_splice1_keepUnselected (l : List WheelOption) (rest P : List ℕ)
    (hsorted : rest.Pairwise (fun a b => b < a)) (hlt : ∀ r ∈ rest, ∀ p ∈ P, r < p) :
    rest.foldl (fun (opts : List WheelOption) (index : ℕ) => splice1 opts (index : ℤ))
        (keepUnselected P 0 l)
      = keepUnselected (rest ++ P) 0 l := by
  induction rest generalizing P with
  | nil => rfl
  | cons i rest ih =>
    rw [List.pairwise_cons] at hsorted
    have herase := eraseIdx_keepUnselected P l 0 i (fun t ht => by
      have := hlt i (List.mem_cons_self _ _) t ht
      omega)
    rw [Nat.zero_add] at herase
    rw [List.foldl_cons, splice1_natCast, herase, ih (i :: P) hsorted.2]
    · apply keepUnselected_congr
      intro x
      simp only [List.mem_append, List.mem_cons]
      tauto
    · intro r hr p hp
      rcases List.mem_cons.mp hp with hp | hp
      · rw [hp]
        exact hsorted.1 r hr
      · exact hlt r (List.mem_cons_of_mem _ hr) p hp

/-- Distinct indices sorted with the comparator `b - a` are strictly descending. -/
theorem insertionSort_descending (S : List ℕ) (h : S.Nodup) :
    (S.insertionSort (fun a b => b ≤ a)).Pairwise (fun a b => b < a) := by
  haveI : IsTotal ℕ (fun a b => b ≤ a) := ⟨fun a b => le_total b a⟩
  haveI : IsTrans ℕ (fun a b => b ≤ a) := ⟨fun _ _ _ hab hbc => le_trans hbc hab⟩
  have hs : (S.insertionSort (fun a b => b ≤ a)).Pairwise (fun a b => b ≤ a) :=
    List.sorted_insertionSort (fun a b => b ≤ a) S
  have hn : (S.insertionSort (fun a b => b ≤ a)).Nodup :=
    (List.perm_insertionSort (fun a b => b ≤ a) S).nodup_iff.mpr h
  exact (hs.and hn).imp (fun hab => lt_of_le_of_ne hab.1 (fun he => hab.2 he.symm))

/-- The restriction written with the library functions: enumerate, filter, project. -/
theorem keepUnselected_eq_filter {α : Type} (S : List ℕ) (k : ℕ) (l : List α) :
    keepUnselected S k l
      = ((l.enumFrom k).filter (fun p => decide (p.1 ∉ S))).map Prod.snd := by
  induction l generalizing k with
  | nil => rfl
  | cons x xs ih =>
    by_cases h : k ∈ S
    · simp [keepUnselected, List.enumFrom_cons, List.filter_cons, h, ih]
    · simp [keepUnselected, List.enumFrom_cons, List.filter_cons, h, ih]

/-- The option list after a bulk removal that passes the guards and the prompt. -/
theorem removeSelectedOptions_options (s : SpinTheWheel K) (hmode : s.selectionMode = true)
    (hidle : s.isSpinning = false) (hnodup : s.selectedOptions.Nodup)
    (hrem : 2 ≤ (s.options.length : ℤ) - (s.selectedOptions.length : ℤ)) :
    (removeSelectedOptions s true).options = keepUnselected s.selectedOptions 0 s.options ∧
    (removeSelectedOptions s true).selectedOptions = [] := by
  by_cases hempty : s.selectedOptions = []
  · simp [removeSelectedOptions, hempty, keepUnselected_nil]
  · have hlen : (s.selectedOptions.length == 0) = false := by
      simp only [beq_eq_false_iff_ne, ne_eq, List.length_eq_zero]
      exact hempty
    have hnot : ¬ ((s.options.length : ℤ) - (s.selectedOptions.length : ℤ) < 2) := by omega
    have hfold := foldl_splice1_keepUnselected s.options
      (s.selectedOptions.insertionSort (fun a b => b ≤ a)) []
      (insertionSort_descending _ hnodup) (fun _ _ p hp => by cases hp)
    rw [keepUnselected_nil] at hfold
    simp only [removeSelectedOptions, hmode, hidle, hlen, Bool.not_true, Bool.or_self,
      Bool.false_eq_true, if_false, hnot, showToast, updateOptionsDisplay_options, hfold]
    constructor
    · apply keepUnselected_congr
      intro x
      simp only [List.append_nil]
      exact List.mem_insertionSort (fun a b => b ≤ a)
    · unfold updateOptionsDisplay
      split
      · split <;> rfl
      · rfl

end BulkRemoval

/-- C16: bulk removal deletes exactly the selected options and never reorders the rest.
For every option list and every selection S of distinct indices (valid or not) with
options.length - |S| ≥ 2, selection mode on, the wheel not spinning and the prompt
confirmed, the list after `removeSelectedOptions` is the original list restricted to the
indices not in S, in their original relative order, and the selection is empty
afterwards. -/
theorem C16_bulk_removal_exact {K : Type} [LinearOrderedField K] [FloorRing K]
    (s : SpinTheWheel K) (hmode : s.selectionMode = true) (hidle : s.isSpinning = false)
    (hnodup : s.selectedOptions.Nodup)
    (hrem : 2 ≤ (s.options.length : ℤ) - (s.selectedOptions.length : ℤ)) :
    (removeSelectedOptions s true).options
      = ((s.options.enum.filter (fun p => decide (p.1 ∉ s.selectedOptions))).map Prod.snd) ∧
    (removeSelectedOptions s true).options = keepUnselected s.selectedOptions 0 s.options ∧
    (removeSelectedOptions s true).selectedOptions = [] := by
  obtain ⟨h1, h2⟩ := removeSelectedOptions_options s hmode hidle hnodup hrem
  refine ⟨?_, h1, h2⟩
  rw [h1, keepUnselected_eq_filter, List.enum_eq_enumFrom]

/-- Witness of C16: of the options "A" to "E" the ones at the indices 2 and 0, selected in
that order, are removed; "B", "D", "E" remain in order. -/
theorem C16_bulk_removal_exact_witness :
    ([2, 0] : List ℕ).Nodup ∧
    (removeSelectedOptions
      { (wheelOf [⟨"A", "#374151"⟩, ⟨"B", "#475569"⟩, ⟨"C", "#334155"⟩, ⟨"D", "#6366F1"⟩,
          ⟨"E", "#2563EB"⟩] : SpinTheWheel ℚ) with
        selectionMode := true, selectedOptions := [2, 0] } true).options
      = [⟨"B", "#475569"⟩, ⟨"D", "#6366F1"⟩, ⟨"E", "#2563EB"⟩] ∧
    (removeSelectedOptions
      { (wheelOf [⟨"A", "#374151"⟩, ⟨"B", "#475569"⟩, ⟨"C", "#334155"⟩, ⟨"D", "#6366F1"⟩,
          ⟨"E", "#2563EB"⟩] : SpinTheWheel ℚ) with
        selectionMode := true, selectedOptions := [2, 0] } true).selectedOptions = [] :=
  have h := C16_bulk_removal_exact
    { (wheelOf [⟨"A", "#374151"⟩, ⟨"B", "#475569"⟩, ⟨"C", "#334155"⟩, ⟨"D", "#6366F1"⟩,
        ⟨"E", "#2563EB"⟩] : SpinTheWheel ℚ) with
      selectionMode := true, selectedOptions := [2, 0] } rfl rfl (by decide) (by decide)
  ⟨by decide, h.2.1.trans (by decide), h.2.2⟩

end Spinova
